import Mathlib

/-!
go-deck: a verification development for `card.go`

The Go package `deck` builds a deck of playing cards and offers a few
transformations of it (`DefaultSort`, `Sort`, `Shuffle`, `Jokers`) that
`New` applies in argument order.

Conventions of the embedding.

* `Suit` and `Rank` are `uint8` in the source; here they are `Fin 256`, whose
  arithmetic wraps modulo 256 exactly as `uint8` does.
* A `[]Card` is a `List Card`.  A function that may stop with a run-time panic
  (an index out of range) returns `Option`; `none` is the panic.
* `sort.Slice`, `rand.Perm` and `time.Now` belong to the Go standard library,
  not to this package.  They are parameters of the functions that call them,
  and what the library documents about them is stated as a predicate
  (`SliceSortSpec`; being a permutation of `List.range n`).  `insertionSort`,
  the routine `sort.Slice` runs on short slices, is proved to meet
  `SliceSortSpec`; it is the instance at which concrete decks are evaluated.
  Two statements need more of `sort.Slice` than its documentation gives, and
  say so.  On the empty slice: that it calls the comparator on positions of
  the slice only (`CallsInRange`).  On sorting twice: that it gives back a
  slice already in order as it is (`KeepsSorted`), which is proved for
  `goSortSlice`, the first steps of the routine `sort.Slice` runs, with the
  rest of the routine left open.
* `Suit.String` and `Rank.String` are generated by `stringer` and are not part
  of `card.go`; `Card.String` takes them as parameters.
-/

namespace Deck

/-! ## Data model (card.go, lines 12-72) -/

/-- Go: `type Suit uint8`. -/
abbrev Suit := Fin 256

/-- Go: `Spade Suit = iota`. -/
def Spade : Suit := 0
/-- Go: second constant of the `Suit` block. -/
def Diamond : Suit := 1
/-- Go: third constant of the `Suit` block. -/
def Club : Suit := 2
/-- Go: fourth constant of the `Suit` block. -/
def Heart : Suit := 3
/-- Go: fifth constant of the `Suit` block. -/
def Joker : Suit := 4

/-- Go: `var suits = [...]Suit{Spade, Diamond, Club, Heart}`. -/
def suits : List Suit := [Spade, Diamond, Club, Heart]

/-- Go: `type Rank uint8`. -/
abbrev Rank := Fin 256

/-- Go: `Ace` is the first named constant of the `Rank` block, value 1
(value 0 is the blank identifier). -/
def Ace : Rank := 1
/-- Rank 2. -/
def Two : Rank := 2
/-- Rank 3. -/
def Three : Rank := 3
/-- Rank 4. -/
def Four : Rank := 4
/-- Rank 5. -/
def Five : Rank := 5
/-- Rank 6. -/
def Six : Rank := 6
/-- Rank 7. -/
def Seven : Rank := 7
/-- Rank 8. -/
def Eight : Rank := 8
/-- Rank 9. -/
def Nine : Rank := 9
/-- Rank 10. -/
def Ten : Rank := 10
/-- Rank 11. -/
def Jack : Rank := 11
/-- Rank 12. -/
def Queen : Rank := 12
/-- Rank 13. -/
def King : Rank := 13

/-- Go: `minRank = Ace`. -/
def minRank : Rank := Ace
/-- Go: `maxRank = King`. -/
def maxRank : Rank := King

/-- Go: `type Card struct { Suit; Rank }`. -/
structure Card where
  /-- The embedded `Suit` field. -/
  Suit : Suit
  /-- The embedded `Rank` field. -/
  Rank : Rank
deriving DecidableEq, Repr

/-- A transformation `func([]Card) []Card`; `none` is a run-time panic. -/
abbrev Transformation := List Card → Option (List Card)

/-! ## Deck construction (card.go, lines 83-96) -/

/-- The inner loop of `New`:
`for rank := minRank; rank <= maxRank; rank++ { cards = append(cards, Card{suit, rank}) }`.
The counter is a `uint8`; `fuel` bounds the number of iterations of the model
and 256 suffices for every pair of bounds below 255. -/
def rankLoop (suit : Suit) : Nat → Rank → List Card → List Card
  | 0, _, cards => cards
  | fuel + 1, rank, cards =>
    if rank ≤ maxRank then
      rankLoop suit fuel (rank + 1) (cards ++ [{ Suit := suit, Rank := rank }])
    else cards

/-- The first part of `New`: the two nested loops that fill `cards`,
starting from the nil slice. -/
def newCards : List Card :=
  suits.foldl (fun cards suit => rankLoop suit 256 minRank cards) []

/-- Go: `func New(opts ...func([]Card) []Card) []Card`.  After the nested
loops, `for _, opt := range opts { cards = opt(cards) }`. -/
def New (opts : List Transformation) : Option (List Card) :=
  opts.foldlM (fun cards opt => opt cards) newCards

/-! ## Sorting (card.go, lines 98-121) -/

/-- Go: `func absRank(c Card) int { return int(c.Suit)*int(maxRank) + int(c.Rank) }`.
The operands are below 256, so the value is below 2^12 and `int` does not
overflow. -/
def absRank (c : Card) : Nat :=
  c.Suit.val * maxRank.val + c.Rank.val

/-- The comparator closure handed to `sort.Slice`: a function of two
positions.  The closure holds a reference to the slice being sorted, so what
it reads at a call is the content of the slice at that time; that content is
the first argument here.  `none` is a panic inside the comparator. -/
abbrev LessFn := List Card → Nat → Nat → Option Bool

/-- Go: `func Less(cards []Card) func(i, j int) bool`, whose closure returns
`absRank(cards[i]) < absRank(cards[j])`.  The argument is the slice captured
when the closure is made; `cards[i]` inside the closure reads through it the
content `cur` the slice has at the time of the call, and panics when the
index is out of range. -/
def Less (_cards : List Card) : LessFn := fun cur i j =>
  match cur[i]?, cur[j]? with
  | some a, some b => some (decide (absRank a < absRank b))
  | _, _ => none

/-- The type of `sort.Slice(x, less)`: from the slice and the comparator to
the slice after the call (the same storage, reordered in place). -/
abbrev SliceSorter := List Card → LessFn → Option (List Card)

/-- Go: `func DefaultSort(cards []Card) []Card`:
`sort.Slice(cards, Less(cards)); return cards`. -/
def DefaultSort (sortSlice : SliceSorter) : Transformation :=
  fun cards => sortSlice cards (Less cards)

/-- Go: `func Sort(less func(cards []Card) func(i, j int) bool) func([]Card) []Card`
(`Sort` is a reserved word of Lean, hence the name): the returned
transformation runs `sort.Slice(cards, less(cards)); return cards`.
The call `less(cards)` is made first, with the slice as it is then; it is a
call into the caller's code and may panic (a nil `less`, a factory that reads
`cards[0]` of an empty slice), which is `none`.  Only then does `sort.Slice`
run, with the closure the call returned. -/
def CustomSort (sortSlice : SliceSorter) (less : List Card → Option LessFn) : Transformation :=
  fun cards =>
    match less cards with
    | none => none
    | some closure => sortSlice cards closure

/-! ### The contract of `sort.Slice` -/

/-- What the package `sort` requires of a comparator ("Less must describe a
transitive ordering"): a strict order in which being incomparable is
transitive as well. -/
structure StrictWeak (lt : Card → Card → Bool) : Prop where
  /-- No element sorts before itself. -/
  irrefl : ∀ a, lt a a = false
  /-- If `a` sorts before `b` and `b` before `c`, then `a` sorts before `c`. -/
  trans : ∀ a b c, lt a b = true → lt b c = true → lt a c = true
  /-- If `a` does not sort before `b` nor `b` before `c`, then `a` does not
  sort before `c`. -/
  negTrans : ∀ a b c, lt a b = false → lt b c = false → lt a c = false

/-- The comparator `less` compares the cards it finds at the two positions
with `lt`, whatever the content of the slice is. -/
def ComparesBy (less : LessFn) (lt : Card → Card → Bool) : Prop :=
  ∀ (cur : List Card) (i j : Nat) (a b : Card),
    cur[i]? = some a → cur[j]? = some b → less cur i j = some (lt a b)

/-- The documented behaviour of `sort.Slice`.  It only swaps elements, so
what it returns is a rearrangement of its input; and for a comparator that
compares the elements at the two positions by a strict weak order it returns,
without panic, a slice in which no element sorts before an earlier one.
Nothing is promised about the relative order of elements that compare as
equal (the sort is not stable). -/
structure SliceSortSpec (sortSlice : SliceSorter) : Prop where
  /-- The result is a rearrangement of the input. -/
  perm : ∀ (x : List Card) (less : LessFn) (y : List Card),
    sortSlice x less = some y → y.Perm x
  /-- The result is sorted. -/
  sorted : ∀ (x : List Card) (less : LessFn) (lt : Card → Card → Bool),
    StrictWeak lt → ComparesBy less lt →
    ∃ y, sortSlice x less = some y ∧ y.Pairwise (fun a b => lt b a = false)

/-- The function `swap` that `sort.Slice` obtains from `reflect.Swapper`:
exchanges the elements at positions `i` and `j`. -/
def swapAt (data : List Card) (i j : Nat) : List Card :=
  match data[i]?, data[j]? with
  | some x, some y => (data.set i y).set j x
  | _, _ => data

/-- The inner loop of the library routine `insertionSort_func(data, 0, n)`:
`for j := i; j > 0 && less(j, j-1); j-- { swap(j, j-1) }`, started at `j`. -/
def insertionInner (less : LessFn) : Nat → List Card → Option (List Card)
  | 0, data => some data
  | j + 1, data =>
    match less data (j + 1) j with
    | none => none
    | some true => insertionInner less j (swapAt data (j + 1) j)
    | some false => some data

/-- The library routine `insertionSort_func(data, 0, n)`:
`for i := 1; i < n; i++ { ...inner loop... }`.  It is what `sort.Slice` runs
on a short slice (on one of at most six elements it is all that runs), and
it is one function that meets `SliceSortSpec`. -/
def insertionSort : SliceSorter := fun data less =>
  (List.range' 1 (data.length - 1)).foldlM (fun d i => insertionInner less i d) data

/-! ### How `sort.Slice` starts

`sort.Slice(x, less)` runs `pdqsort_func(data, 0, n, bits.Len(n))` (package
`sort`, Go 1.19 and later).  The routine hands a slice of at most 12 elements
to the insertion sort.  On a longer slice its first round picks a pivot with
`choosePivot_func`, which counts how many of the pairs it compares are out of
order, and when none is, `partialInsertionSort_func` walks through the slice
and the routine returns at once if no element sorts before its left
neighbour.  What the routine does in every other case is the parameter
`rest` below, of which only the contract of `sort.Slice` is used. -/

/-- The library routine `order2_func(data, a, b, &swaps)`:
`if less(b, a) { *swaps++; return b, a }; return a, b`.  The result is the
two positions and the new count. -/
def order2 (less : LessFn) (data : List Card) (a b swaps : Nat) : Option (Nat × Nat × Nat) :=
  match less data b a with
  | none => none
  | some true => some (b, a, swaps + 1)
  | some false => some (a, b, swaps)

/-- The library routine `median_func(data, a, b, c, &swaps)`:
`a, b = order2(a, b); b, c = order2(b, c); a, b = order2(a, b); return b`.
The result is the position and the new count. -/
def median (less : LessFn) (data : List Card) (a b c swaps : Nat) : Option (Nat × Nat) :=
  match order2 less data a b swaps with
  | none => none
  | some (a1, b1, s1) =>
    match order2 less data b1 c s1 with
    | none => none
    | some (b2, _, s2) =>
      match order2 less data a1 b2 s2 with
      | none => none
      | some (_, b3, s3) => some (b3, s3)

/-- The library routine `medianAdjacent_func(data, a, &swaps)`:
`median_func(data, a-1, a, a+1, &swaps)`. -/
def medianAdjacent (less : LessFn) (data : List Card) (a swaps : Nat) : Option (Nat × Nat) :=
  median less data (a - 1) a (a + 1) swaps

/-- The library routine `choosePivot_func(data, 0, n)`, with
`i, j, k = n/4*1, n/4*2, n/4*3`: for `n >= 8` the median of the three
positions, taken after `medianAdjacent_func` at each of them when `n >= 50`.
The result is the pivot and the count of swaps, from which the routine
derives its hint: 0 swaps is `increasingHint`. -/
def choosePivot (less : LessFn) (data : List Card) : Option (Nat × Nat) :=
  let l := data.length
  let i := l / 4 * 1
  let j := l / 4 * 2
  let k := l / 4 * 3
  if 8 ≤ l then
    if 50 ≤ l then
      match medianAdjacent less data i 0 with
      | none => none
      | some (i1, s1) =>
        match medianAdjacent less data j s1 with
        | none => none
        | some (j1, s2) =>
          match medianAdjacent less data k s2 with
          | none => none
          | some (k1, s3) => median less data i1 j1 k1 s3
    else median less data i j k 0
  else some (j, 0)

/-- The first loop of the library routine `partialInsertionSort_func(data, 0, n)`:
`i := 1; for i < n && !less(i, i-1) { i++ }`, followed by the test `i == n`.
`fuel` is `n - i`, the number of positions still to visit. -/
def orderedScan (less : LessFn) (data : List Card) : Nat → Nat → Option Bool
  | 0, _ => some true
  | fuel + 1, i =>
    match less data i (i - 1) with
    | none => none
    | some true => some false
    | some false => orderedScan less data fuel (i + 1)

/-- The library function `sort.Slice` as far as its first steps go: the
insertion sort on a slice of at most 12 elements; on a longer slice the slice
itself when `choosePivot_func` counts no swap and the walk of
`partialInsertionSort_func` reaches the end; `rest` in every other case.
Before `choosePivot_func` the routine tests its depth limit, `bits.Len(n)`,
which is not 0, and whether the last round was unbalanced, which the first
round is not, so neither `heapSort_func` nor `breakPatterns_func` runs.  With
a count of swaps other than 0 (12 makes the routine reverse the slice first)
or a walk that stops early, the routine goes on; that is `rest`. -/
def goSortSlice (rest : SliceSorter) : SliceSorter := fun data less =>
  if data.length ≤ 12 then insertionSort data less
  else
    match choosePivot less data with
    | none => none
    | some (_, swaps) =>
      if swaps = 0 then
        match orderedScan less data (data.length - 1) 1 with
        | none => none
        | some true => some data
        | some false => rest data less
      else rest data less

/-! ## Shuffling (card.go, lines 123-134) -/

/-- The two slices `Shuffle` works with: its argument and the slice it makes. -/
structure ShuffleState where
  /-- The argument slice. -/
  cards : List Card
  /-- The slice made by `make([]Card, len(cards))`. -/
  ret : List Card
deriving DecidableEq, Repr

/-- One iteration of the loop of `Shuffle`: `ret[i] = cards[j]`.  Either
index out of range panics. -/
def shuffleStep (st : ShuffleState) (i j : Nat) : Option ShuffleState :=
  match st.cards[j]? with
  | none => none
  | some c => if i < st.ret.length then some { st with ret := st.ret.set i c } else none

/-- The loop `for i, j := range perm { ret[i] = cards[j] }`, from index `i` on. -/
def shuffleLoop : List Nat → Nat → ShuffleState → Option ShuffleState
  | [], _, st => some st
  | j :: rest, i, st => (shuffleStep st i j).bind (shuffleLoop rest (i + 1))

/-- The body of `Shuffle` once `perm` is drawn: `ret` starts as a slice of
`len(cards)` zero cards, then the loop runs. -/
def shuffleRun (perm : List Nat) (cards : List Card) : Option ShuffleState :=
  shuffleLoop perm 0
    { cards := cards, ret := List.replicate cards.length { Suit := 0, Rank := 0 } }

/-- Go: `func Shuffle(cards []Card) []Card`.  `now` is `time.Now().Unix()` and
`randPerm seed n` is `rand.New(rand.NewSource(seed)).Perm(n)`; the result is
the slice `ret`. -/
def Shuffle (randPerm : Int → Nat → List Nat) (now : Int) : Transformation :=
  fun cards => (shuffleRun (randPerm now cards.length) cards).map (fun st => st.ret)

/-- Go: `time.Time.Unix`, of an instant given in nanoseconds since the epoch:
the number of whole seconds elapsed, the nanoseconds divided by 10^9 and
rounded down. -/
def unixSeconds (nanos : Int) : Int := nanos / 1000000000

/-- Go: `Shuffle` called at the instant `clock` (the value of `time.Now()`, in
nanoseconds since the epoch): the seed of the generator is
`time.Now().Unix()`. -/
def ShuffleAt (randPerm : Int → Nat → List Nat) (clock : Int) : Transformation :=
  Shuffle randPerm (unixSeconds clock)

/-! ## Jokers (card.go, lines 136-148) -/

/-- Go: the conversion `Rank(i)` of a non-negative `int` to `uint8`, which
keeps the low eight bits. -/
def toRank (i : Nat) : Rank := ⟨i % 256, Nat.mod_lt i (by decide)⟩

/-- The card appended by the `i`-th iteration of the loop of `Jokers`:
`Card{Rank: Rank(i), Suit: Joker}`. -/
def jokerCard (i : Nat) : Card := { Rank := toRank i, Suit := Joker }

/-- Go: `func Jokers(n int) func([]Card) []Card`: the returned transformation
runs `for i := 0; i < n; i++ { cards = append(cards, Card{Rank: Rank(i), Suit: Joker}) }`
and returns `cards`.  The loop body runs for `i = 0, ..., n-1`, and not at all
when `n <= 0`. -/
def Jokers (n : Int) : Transformation :=
  fun cards => some ((List.range n.toNat).foldl (fun cards i => cards ++ [jokerCard i]) cards)


/-! ## Rendering (card.go, lines 74-80) -/

/-- Go: `func (c Card) String() string`:
`if c.Suit == Joker { return c.Suit.String() }` and otherwise
`fmt.Sprintf("%s of %ss", c.Rank.String(), c.Suit.String())`, which writes the
first string, then `" of "`, then the second string, then `"s"`.
`suitString` and `rankString` are the methods `Suit.String` and `Rank.String`,
which `stringer` generates and which are not part of `card.go`. -/
def CardString (suitString : Suit → String) (rankString : Rank → String) (c : Card) : String :=
  if c.Suit = Joker then suitString c.Suit
  else rankString c.Rank ++ " of " ++ suitString c.Suit ++ "s"

/-- Modelled from the spec: the method `Suit.String`, generated by `stringer`
and missing from the sources at hand.  The spec gives every suit "its own
canonical label" and shows the labels "Joker" and, in "Ace of Spades",
"Spade"; the label of a suit is the name of its constant.  For a value that
has no constant `stringer` writes the type and the number. -/
def SuitString (s : Suit) : String :=
  if s = Spade then "Spade"
  else if s = Diamond then "Diamond"
  else if s = Club then "Club"
  else if s = Heart then "Heart"
  else if s = Joker then "Joker"
  else "Suit(" ++ toString s.val ++ ")"

/-- Modelled from the spec: the method `Rank.String`, generated by `stringer`
and missing from the sources at hand.  The spec gives every rank "its own
canonical label" and shows "Ace"; the label of a rank is the name of its
constant.  For a value that has no constant, 0 included, `stringer` writes
the type and the number. -/
def RankString (r : Rank) : String :=
  if r = Ace then "Ace"
  else if r = Two then "Two"
  else if r = Three then "Three"
  else if r = Four then "Four"
  else if r = Five then "Five"
  else if r = Six then "Six"
  else if r = Seven then "Seven"
  else if r = Eight then "Eight"
  else if r = Nine then "Nine"
  else if r = Ten then "Ten"
  else if r = Jack then "Jack"
  else if r = Queen then "Queen"
  else if r = King then "King"
  else "Rank(" ++ toString r.val ++ ")"

/-! ## Auxiliary definitions of the proofs -/

/-- The order `Less` compares by: `absRank a < absRank b`. -/
def keyLess (a b : Card) : Bool := decide (absRank a < absRank b)

/-- Insertion of `x` into a list kept in descending order: what one run of
the inner loop of the insertion sort does to the reversed sorted part. -/
def insDesc (lt : Card → Card → Bool) (x : Card) (rp : List Card) : List Card :=
  rp.takeWhile (lt x) ++ x :: rp.dropWhile (lt x)

/-- A card of one of the four suits of `suits` with a rank from `Ace` to `King`. -/
def isStandard (c : Card) : Bool :=
  decide (c.Suit ∈ suits) && decide (Ace ≤ c.Rank) && decide (c.Rank ≤ King)

/-- The jokers appended by `Jokers n`, in order. -/
def jokerCards (n : Nat) : List Card := (List.range n).map jokerCard

/-- A small hand with a repeated card and a joker, on which the statements
below are instantiated. -/
def sampleCards : List Card :=
  [{ Suit := Heart, Rank := Two }, { Suit := Joker, Rank := 0 },
   { Suit := Spade, Rank := King }, { Suit := Heart, Rank := Two }]

/-- A generator that returns the indices in decreasing order whatever the
seed: one of the permutations `rand.Perm` may return, used to instantiate the
statements about `Shuffle`. -/
def reversePerm (_seed : Int) (n : Nat) : List Nat := (List.range n).reverse

/-- The positions handed to `less` by `sort.Slice` are positions of the
slice, and the slice it shows to `less` is a rearrangement of the one it
received: two comparators that agree on those calls lead to the same outcome.
On the empty slice there is no such call. -/
def CallsInRange (sortSlice : SliceSorter) : Prop :=
  ∀ (x : List Card) (less less' : LessFn),
    (∀ (cur : List Card) (i j : Nat), cur.Perm x → i < x.length → j < x.length →
      less cur i j = less' cur i j) →
    sortSlice x less = sortSlice x less'

/-- A generator whose permutation depends on the seed: the indices in
increasing order, rotated by the seed modulo 1000. -/
def rotatePerm (seed : Int) (n : Nat) : List Nat := (List.range n).rotate (seed % 1000).toNat

/-- A property of the implementation of `sort.Slice` that its documentation
does not state: a slice that is already in order comes back as it is.  It is
proved for the insertion sort, which only swaps a card with a neighbour that
the comparator puts after it, and for `goSortSlice`. -/
def KeepsSorted (sortSlice : SliceSorter) : Prop :=
  ∀ (x : List Card) (less : LessFn) (lt : Card → Card → Bool),
    StrictWeak lt → ComparesBy less lt →
    x.Pairwise (fun a b => lt b a = false) → sortSlice x less = some x

/-- A comparator factory whose call returns, with a closure that panics
whenever it is called (a nil closure, for one). -/
def panicLess (_cards : List Card) : Option LessFn := some (fun _ _ _ => none)

/-- A comparator factory that reads the first card when it is called:
`func(cards []Card) func(i, j int) bool { first := cards[0]; return func(i, j int) bool { return absRank(cards[i]) < absRank(first) } }`.
On the empty slice `cards[0]` is out of range and the call panics. -/
def firstCardLess (cards : List Card) : Option LessFn :=
  match cards[0]? with
  | none => none
  | some first => some (fun cur i _ =>
      match cur[i]? with
      | some a => some (decide (absRank a < absRank first))
      | none => none)

/-- The nil comparator factory: calling it panics. -/
def nilLess (_cards : List Card) : Option LessFn := none

/-- A sort that meets the contract of `sort.Slice` and leaves cards of equal
key in the reverse of the order it found them in, which the documentation of
`sort.Slice` allows ("equal elements may be reversed from their original
order"): the insertion sort run on the slice read backwards. -/
def reversingSort : SliceSorter := fun data less =>
  insertionSort data.reverse less

/-! ## The insertion sort of the library meets the contract -/

theorem swapAt_adjacent (l : List Card) (y x : Card) (r : List Card) :
    swapAt (l ++ y :: x :: r) (l.length + 1) l.length = l ++ x :: y :: r := by
  have hx : (l ++ y :: x :: r)[l.length + 1]? = some x := by
    rw [List.getElem?_append_right (by simp)]; simp
  have hy : (l ++ y :: x :: r)[l.length]? = some y := by
    rw [List.getElem?_append_right (by simp)]; simp
  simp only [swapAt, hx, hy]
  rw [List.set_append_right _ _ (by simp)]
  rw [List.set_append_right _ _ (by simp)]
  simp

/-- One run of the inner loop, started at the end of a sorted part given in
reverse as `rp`, inserts `x` into it. -/
theorem insertionInner_eq (less : LessFn) (lt : Card → Card → Bool) (hc : ComparesBy less lt)
    (x : Card) (rp post : List Card) :
    insertionInner less rp.length (rp.reverse ++ x :: post)
      = some ((insDesc lt x rp).reverse ++ post) := by
  induction rp generalizing post with
  | nil => simp [insertionInner, insDesc]
  | cons y rp ih =>
    have hd : (y :: rp).reverse ++ x :: post = rp.reverse ++ y :: x :: post := by simp
    have hx : (rp.reverse ++ y :: x :: post)[rp.length + 1]? = some x := by
      rw [List.getElem?_append_right (by simp)]; simp
    have hy : (rp.reverse ++ y :: x :: post)[rp.length]? = some y := by
      rw [List.getElem?_append_right (by simp)]; simp
    rw [hd, List.length_cons, insertionInner, hc _ _ _ _ _ hx hy]
    cases hlt : lt x y
    · simp [insDesc, hlt]
    · have hs := swapAt_adjacent rp.reverse y x post
      rw [List.length_reverse] at hs
      simp only [hs, ih (y :: post)]
      simp [insDesc, hlt]

/-- Insertion adds one element. -/
theorem insDesc_length (lt : Card → Card → Bool) (x : Card) (rp : List Card) :
    (insDesc lt x rp).length = rp.length + 1 := by
  have h := congrArg List.length (List.takeWhile_append_dropWhile (lt x) rp)
  simp only [List.length_append] at h
  simp only [insDesc, List.length_append, List.length_cons]
  omega

/-- Insertion yields a rearrangement of the inserted element and the list. -/
theorem insDesc_perm (lt : Card → Card → Bool) (x : Card) (rp : List Card) :
    (insDesc lt x rp).Perm (x :: rp) := by
  have h : (rp.takeWhile (lt x) ++ x :: rp.dropWhile (lt x)).Perm
      (x :: (rp.takeWhile (lt x) ++ rp.dropWhile (lt x))) := List.perm_middle
  rw [List.takeWhile_append_dropWhile] at h
  exact h

/-- A strict weak order is asymmetric. -/
theorem StrictWeak.asymm {lt : Card → Card → Bool} (h : StrictWeak lt) (a b : Card)
    (hab : lt a b = true) : lt b a = false := by
  cases hba : lt b a
  · rfl
  · have := h.trans a b a hab hba
    rw [h.irrefl a] at this
    exact absurd this (by decide)

/-- Insertion into a descending list yields a descending list. -/
theorem insDesc_desc (lt : Card → Card → Bool) (hw : StrictWeak lt) (x : Card) (rp : List Card)
    (hd : rp.Pairwise (fun a b => lt a b = false)) :
    (insDesc lt x rp).Pairwise (fun a b => lt a b = false) := by
  induction rp with
  | nil => simp [insDesc]
  | cons y rp ih =>
    have hd' := List.pairwise_cons.mp hd
    have ih' := ih hd'.2
    cases hlt : lt x y
    · -- `x` stays in front of `y`
      have : insDesc lt x (y :: rp) = x :: y :: rp := by simp [insDesc, hlt]
      rw [this]
      refine List.pairwise_cons.mpr ⟨?_, hd⟩
      intro b hb
      rcases List.mem_cons.mp hb with rfl | hb
      · exact hlt
      · exact hw.negTrans x y b hlt (hd'.1 b hb)
    · have : insDesc lt x (y :: rp) = y :: insDesc lt x rp := by simp [insDesc, hlt]
      rw [this]
      refine List.pairwise_cons.mpr ⟨?_, ih'⟩
      intro b hb
      rcases List.mem_cons.mp ((insDesc_perm lt x rp).subset hb) with rfl | hb
      · exact hw.asymm _ _ hlt
      · exact hd'.1 b hb

/-- The outer loop, started with `rp.reverse` as sorted part, inserts the cards of
`rest` one after the other. -/
theorem insertionLoop_eq (less : LessFn) (lt : Card → Card → Bool) (hc : ComparesBy less lt)
    (rest rp : List Card) :
    (List.range' rp.length rest.length).foldlM (fun d i => insertionInner less i d)
        (rp.reverse ++ rest)
      = some ((rest.foldl (fun rp x => insDesc lt x rp) rp).reverse) := by
  induction rest generalizing rp with
  | nil => simp
  | cons x rest ih =>
    have h := ih (insDesc lt x rp)
    rw [insDesc_length] at h
    simp only [List.length_cons, List.range'_succ, List.foldlM_cons, List.foldl_cons]
    rw [insertionInner_eq less lt hc]
    exact h

/-- For a comparator that compares by `lt`, the insertion sort returns, without
panic, the successive insertions of the cards of `data`. -/
theorem insertionSort_eq (less : LessFn) (lt : Card → Card → Bool) (hc : ComparesBy less lt)
    (data : List Card) :
    insertionSort data less
      = some ((data.foldl (fun rp x => insDesc lt x rp) []).reverse) := by
  cases data with
  | nil => simp [insertionSort]
  | cons x rest =>
    have h := insertionLoop_eq less lt hc rest [x]
    simpa [insertionSort, insDesc] using h

/-- Successive insertions keep a descending list descending. -/
theorem foldl_insDesc_desc (lt : Card → Card → Bool) (hw : StrictWeak lt) (data rp : List Card)
    (hd : rp.Pairwise (fun a b => lt a b = false)) :
    (data.foldl (fun rp x => insDesc lt x rp) rp).Pairwise (fun a b => lt a b = false) := by
  induction data generalizing rp with
  | nil => simpa using hd
  | cons x rest ih => exact ih _ (insDesc_desc lt hw x rp hd)

/-- Swapping two neighbours rearranges the slice. -/
theorem swapAt_adjacent_perm (data : List Card) (j : Nat) :
    (swapAt data (j + 1) j).Perm data := by
  by_cases h : j + 1 < data.length
  · obtain ⟨l, a, b, r, hsplit, hl⟩ :
        ∃ l a b r, data = l ++ a :: b :: r ∧ l.length = j := by
      refine ⟨data.take j, data[j], data[j + 1], data.drop (j + 2), ?_, ?_⟩
      · rw [List.getElem_cons_drop, List.getElem_cons_drop, List.take_append_drop]
      · simp; omega
    subst hsplit
    subst hl
    rw [swapAt_adjacent]
    exact List.Perm.append_left _ (List.Perm.swap _ _ _)
  · have : data[j + 1]? = none := List.getElem?_eq_none (by omega)
    simp [swapAt, this]

/-- The inner loop only rearranges the slice, whatever the comparator. -/
theorem insertionInner_perm (less : LessFn) (j : Nat) (data out : List Card)
    (h : insertionInner less j data = some out) : out.Perm data := by
  induction j generalizing data with
  | zero => simp [insertionInner] at h; subst h; exact List.Perm.refl _
  | succ j ih =>
    rw [insertionInner] at h
    split at h
    · exact absurd h (by simp)
    · exact (ih _ h).trans (swapAt_adjacent_perm data j)
    · simp at h; subst h; exact List.Perm.refl _

/-- The insertion sort only rearranges the slice, whatever the comparator. -/
theorem insertionSort_perm (less : LessFn) (data out : List Card)
    (h : insertionSort data less = some out) : out.Perm data := by
  have key : ∀ (idx : List Nat) (d o : List Card),
      idx.foldlM (fun d i => insertionInner less i d) d = some o → o.Perm d := by
    intro idx
    induction idx with
    | nil => intro d o h; simp at h; subst h; exact List.Perm.refl _
    | cons i idx ih =>
      intro d o h
      rw [List.foldlM_cons] at h
      cases hi : insertionInner less i d with
      | none => rw [hi] at h; simp at h
      | some d' =>
        rw [hi] at h
        exact (ih d' o h).trans (insertionInner_perm less i d d' hi)
  exact key _ _ _ h

/-- The insertion sort of the library meets the contract of `sort.Slice`. -/
theorem insertionSort_spec : SliceSortSpec insertionSort where
  perm := fun x less y h => insertionSort_perm less x y h
  sorted := by
    intro x less lt hw hc
    refine ⟨_, insertionSort_eq less lt hc x, ?_⟩
    rw [List.pairwise_reverse]
    exact foldl_insDesc_desc lt hw x [] List.Pairwise.nil

/-! ## Deck construction -/

theorem New_nil : New [] = some newCards := rfl

/-- The last option is applied to the result of the options before it. -/
theorem New_snoc (opts : List Transformation) (f : Transformation) :
    New (opts ++ [f]) = (New opts).bind f := by
  simp only [New, List.foldlM_append, List.foldlM_cons, List.foldlM_nil]
  cases List.foldlM (fun cards opt => opt cards) newCards opts <;> simp

set_option maxRecDepth 100000 in
/-- The cards the nested loops build are those of the four suits with a rank
from Ace to King. -/
theorem mem_newCards (c : Card) :
    c ∈ newCards ↔ (c.Suit ∈ suits ∧ Ace ≤ c.Rank ∧ c.Rank ≤ King) := by
  constructor
  · have h : ∀ c ∈ newCards, c.Suit ∈ suits ∧ Ace ≤ c.Rank ∧ c.Rank ≤ King := by decide
    exact h c
  · rintro ⟨hs, h1, h2⟩
    have h : ∀ s ∈ suits, ∀ r : Rank, Ace ≤ r → r ≤ King →
        ({ Suit := s, Rank := r } : Card) ∈ newCards := by decide
    exact h c.Suit hs c.Rank h1 h2

set_option maxRecDepth 100000 in
/-- C1: `New()` with no options returns exactly 52 pairwise distinct cards,
one for every pair of a suit among Spade, Diamond, Club, Heart and a rank from
Ace to King; each of the four suits occurs 13 times, each of the 13 ranks
occurs 4 times, and no card has the suit Joker or the rank 0. -/
theorem New_standard_deck :
    ∃ deck, New [] = some deck ∧ deck.length = 52 ∧ deck.Nodup ∧
      (∀ c : Card, c ∈ deck ↔ (c.Suit ∈ suits ∧ Ace ≤ c.Rank ∧ c.Rank ≤ King)) ∧
      (∀ s r, s ∈ suits → Ace ≤ r → r ≤ King → deck.count { Suit := s, Rank := r } = 1) ∧
      (∀ s, s ∈ suits → deck.countP (fun c => c.Suit = s) = 13) ∧
      (∀ r : Rank, Ace ≤ r → r ≤ King → deck.countP (fun c => c.Rank = r) = 4) ∧
      (∀ c, c ∈ deck → c.Suit ≠ Joker ∧ c.Rank ≠ 0) := by
  have hnd : newCards.Nodup := by decide
  refine ⟨newCards, rfl, by decide, hnd, mem_newCards, ?_, ?_, ?_, by decide⟩
  · intro s r hs h1 h2
    exact List.count_eq_one_of_mem hnd ((mem_newCards _).mpr ⟨hs, h1, h2⟩)
  · intro s hs
    simp only [suits, List.mem_cons, List.mem_singleton, List.not_mem_nil, or_false] at hs
    rcases hs with rfl | rfl | rfl | rfl <;> decide
  · decide

/-- C2: `New()` with no options returns the cards in suit-major, rank-minor
order: the card at position `i < 52` has suit ordinal `i / 13` and rank
`i % 13 + 1`. -/
theorem New_order (i : Nat) (hi : i < 52) :
    ∃ deck c, New [] = some deck ∧ deck[i]? = some c ∧
      c.Suit.val = i / 13 ∧ c.Rank.val = i % 13 + 1 := by
  refine ⟨newCards, ?_⟩
  interval_cases i <;> exact ⟨_, rfl, rfl, rfl, rfl⟩

theorem New_order_witness :
    30 < 52 ∧ ∃ deck c, New [] = some deck ∧ deck[30]? = some c ∧
      c.Suit.val = 30 / 13 ∧ c.Rank.val = 30 % 13 + 1 :=
  ⟨by decide, New_order 30 (by decide)⟩

/-- C3: `New(f1, ..., fk)` is the left fold of function application over the
deck `New()`, in argument order; in particular `New(opts..., f)` is `f`
applied to `New(opts...)`, and what a transformation returns is passed on as
it is, whatever its length. -/
theorem New_applies_in_order (opts : List Transformation) (f : Transformation) :
    New opts = opts.foldl (fun acc g => acc.bind g) (New []) ∧
    New (opts ++ [f]) = (New opts).bind f ∧
    (∀ xs : List Card, New (opts ++ [fun _ => some xs]) = (New opts).map (fun _ => xs)) ∧
    (∀ xs : List Card, New [fun _ => some xs] = some xs) := by
  refine ⟨?_, New_snoc opts f, ?_, fun xs => rfl⟩
  · induction opts using List.reverseRecOn with
    | nil => rfl
    | append_singleton l g ih => rw [New_snoc, List.foldl_append, ← ih]; rfl
  · intro xs
    rw [New_snoc]
    cases New opts <;> rfl

/-! ## Default sort -/

theorem Less_comparesBy (cards : List Card) : ComparesBy (Less cards) keyLess := by
  intro cur i j a b ha hb
  simp only [Less, ha, hb, keyLess]

/-- Comparison by key is a strict weak order. -/
theorem keyLess_strictWeak : StrictWeak keyLess where
  irrefl := fun a => by simp [keyLess]
  trans := fun a b c h1 h2 => by
    simp only [keyLess, decide_eq_true_eq] at *
    omega
  negTrans := fun a b c h1 h2 => by
    simp only [keyLess, decide_eq_false_iff_not] at *
    omega

/-- Under the contract of `sort.Slice`, `DefaultSort` returns a rearrangement
of its argument in which keys never decrease from left to right. -/
theorem DefaultSort_spec (sortSlice : SliceSorter) (hs : SliceSortSpec sortSlice)
    (cs : List Card) :
    ∃ out, DefaultSort sortSlice cs = some out ∧ out.Perm cs ∧
      out.Pairwise (fun a b => absRank a ≤ absRank b) := by
  obtain ⟨out, hout, hsorted⟩ :=
    hs.sorted cs (Less cs) keyLess keyLess_strictWeak (Less_comparesBy cs)
  refine ⟨out, hout, hs.perm cs (Less cs) out hout, ?_⟩
  refine hsorted.imp ?_
  intro a b h
  simp only [keyLess, decide_eq_false_iff_not] at h
  omega

/-- With one option, `New` applies it to what the nested loops built. -/
theorem New_single (f : Transformation) : New [f] = f newCards := by
  simp [New]

/-- C4: the sequence returned by `DefaultSort(cs)` is ordered by the key
`absRank`: for every pair of adjacent cards `(a, b)` of the result,
`absRank(a) <= absRank(b)`; this holds in particular for `New(DefaultSort)`.
`sort.Slice` is any function that meets its documented contract. -/
theorem DefaultSort_sorted (sortSlice : SliceSorter) (hs : SliceSortSpec sortSlice)
    (cs : List Card) :
    (∀ c : Card, absRank c = c.Suit.val * 13 + c.Rank.val) ∧
    (∃ out, DefaultSort sortSlice cs = some out ∧
      out.Chain' (fun a b => absRank a ≤ absRank b)) ∧
    (∃ out, New [DefaultSort sortSlice] = some out ∧
      out.Chain' (fun a b => absRank a ≤ absRank b)) := by
  refine ⟨fun _ => rfl, ?_, ?_⟩
  · obtain ⟨out, h, _, hp⟩ := DefaultSort_spec sortSlice hs cs
    exact ⟨out, h, hp.chain'⟩
  · obtain ⟨out, h, _, hp⟩ := DefaultSort_spec sortSlice hs newCards
    exact ⟨out, by rw [New_single]; exact h, hp.chain'⟩

theorem DefaultSort_sorted_witness :
    SliceSortSpec insertionSort ∧
    (∀ c : Card, absRank c = c.Suit.val * 13 + c.Rank.val) ∧
    (∃ out, DefaultSort insertionSort sampleCards = some out ∧
      out.Chain' (fun a b => absRank a ≤ absRank b)) ∧
    (∃ out, New [DefaultSort insertionSort] = some out ∧
      out.Chain' (fun a b => absRank a ≤ absRank b)) :=
  ⟨insertionSort_spec, DefaultSort_sorted insertionSort insertionSort_spec sampleCards⟩

/-- C5: `DefaultSort(cs)` is a reordering of `cs`: it has the same length and
the same multiset of cards, every card with the multiplicity it has in `cs`.
`sort.Slice` is any function that meets its documented contract. -/
theorem DefaultSort_reorders (sortSlice : SliceSorter) (hs : SliceSortSpec sortSlice)
    (cs : List Card) :
    ∃ out, DefaultSort sortSlice cs = some out ∧ out.length = cs.length ∧
      out.Perm cs ∧ (out : Multiset Card) = (cs : Multiset Card) ∧
      ∀ c : Card, out.count c = cs.count c := by
  obtain ⟨out, h, hp, _⟩ := DefaultSort_spec sortSlice hs cs
  exact ⟨out, h, hp.length_eq, hp, Multiset.coe_eq_coe.mpr hp, fun c => hp.count_eq c⟩

theorem DefaultSort_reorders_witness :
    SliceSortSpec insertionSort ∧
    ∃ out, DefaultSort insertionSort sampleCards = some out ∧
      out.length = sampleCards.length ∧ out.Perm sampleCards ∧
      (out : Multiset Card) = (sampleCards : Multiset Card) ∧
      ∀ c : Card, out.count c = sampleCards.count c :=
  ⟨insertionSort_spec, DefaultSort_reorders insertionSort insertionSort_spec sampleCards⟩

/-! ## Jokers -/

theorem foldl_append_jokers (m : Nat) (cs : List Card) :
    (List.range m).foldl (fun cards i => cards ++ [jokerCard i]) cs = cs ++ jokerCards m := by
  induction m with
  | zero => simp [jokerCards]
  | succ m ih =>
    rw [List.range_succ, List.foldl_append, ih]
    simp [jokerCards, List.range_succ]

/-- The transformation `Jokers n` appends `n` jokers, none when `n <= 0`. -/
theorem Jokers_eq (n : Int) (cs : List Card) :
    Jokers n cs = some (cs ++ jokerCards n.toNat) := by
  simp only [Jokers, foldl_append_jokers]

/-- There are `m` jokers of indices below `m`. -/
theorem jokerCards_length (m : Nat) : (jokerCards m).length = m := by
  simp [jokerCards]

/-- The joker at position `k` is the one of index `k`. -/
theorem jokerCards_get (m k : Nat) (hk : k < m) :
    (jokerCards m)[k]? = some (jokerCard k) := by
  simp [jokerCards, List.getElem?_range hk]

/-- C6, the claim as stated fails: the card `Jokers(257)` appends at position
256 of the empty sequence has rank 0, not 256 (a `Rank` holds eight bits), so
it is not true that every appended card has its insertion index as rank. -/
theorem Jokers_rank_wraps :
    (∃ out, Jokers 257 [] = some out ∧
      out[([] : List Card).length + 256]? = some { Suit := Joker, Rank := 0 }) ∧
    ¬ (∃ out, Jokers 257 [] = some out ∧
        ∀ k : Nat, (k : Int) < 257 → ∃ c, out[([] : List Card).length + k]? = some c ∧
          c.Suit = Joker ∧ c.Rank.val = k) := by
  have h : (jokerCards 257)[256]? = some (jokerCard 256) :=
    jokerCards_get 257 256 (by decide)
  constructor
  · refine ⟨_, Jokers_eq 257 [], ?_⟩
    simpa using h
  · rintro ⟨out, hout, hall⟩
    obtain ⟨c, _, _, hc⟩ := hall 256 (by decide)
    have := c.Rank.isLt
    omega

/-- C6, amended: for every count `n >= 0` and every sequence `cs`,
`Jokers(n)(cs)` has length `len(cs) + n`, its first `len(cs)` cards are `cs`
in the same order, and for every `k < n` the card at position `len(cs) + k`
has suit Joker and rank `k mod 256` (so rank `k` whenever `k < 256`).
`New(Jokers(3))` has 55 cards, the last three being the jokers of ranks
0, 1, 2 in that order. -/
theorem Jokers_appends (n : Int) (hn : 0 ≤ n) (cs : List Card) :
    (∃ out, Jokers n cs = some out ∧ (out.length : Int) = cs.length + n ∧
      out.take cs.length = cs ∧
      ∀ k : Nat, (k : Int) < n → ∃ c, out[cs.length + k]? = some c ∧
        c.Suit = Joker ∧ c.Rank.val = k % 256 ∧ (k < 256 → c.Rank.val = k)) ∧
    (∃ deck, New [Jokers 3] = some deck ∧ deck.length = 55 ∧
      deck.drop 52 = [{ Suit := Joker, Rank := 0 }, { Suit := Joker, Rank := 1 },
        { Suit := Joker, Rank := 2 }]) := by
  constructor
  · refine ⟨_, Jokers_eq n cs, ?_, ?_, ?_⟩
    · rw [List.length_append, jokerCards_length]
      push_cast
      rw [Int.toNat_of_nonneg hn]
    · simp
    · intro k hk
      have hk' : k < n.toNat := by omega
      refine ⟨jokerCard k, ?_, rfl, rfl, fun h => Nat.mod_eq_of_lt h⟩
      rw [List.getElem?_append_right (by omega)]
      simpa using jokerCards_get n.toNat k hk'
  · exact ⟨_, by rw [New_single]; exact Jokers_eq 3 newCards, by decide, by decide⟩

theorem Jokers_appends_witness :
    (0 : Int) ≤ 2 ∧
    (∃ out, Jokers 2 sampleCards = some out ∧
      (out.length : Int) = sampleCards.length + 2 ∧
      out.take sampleCards.length = sampleCards ∧
      ∀ k : Nat, (k : Int) < 2 → ∃ c, out[sampleCards.length + k]? = some c ∧
        c.Suit = Joker ∧ c.Rank.val = k % 256 ∧ (k < 256 → c.Rank.val = k)) ∧
    (∃ deck, New [Jokers 3] = some deck ∧ deck.length = 55 ∧
      deck.drop 52 = [{ Suit := Joker, Rank := 0 }, { Suit := Joker, Rank := 1 },
        { Suit := Joker, Rank := 2 }]) :=
  ⟨by decide, Jokers_appends 2 (by decide) sampleCards⟩

/-- C7: for every count `n <= 0` and every sequence `cs`, `Jokers(n)(cs)`
returns `cs` unchanged, without failure. -/
theorem Jokers_nonpositive (n : Int) (hn : n ≤ 0) (cs : List Card) :
    Jokers n cs = some cs := by
  rw [Jokers_eq, Int.toNat_eq_zero.mpr hn]
  simp [jokerCards]

theorem Jokers_nonpositive_witness :
    (-3 : Int) ≤ 0 ∧ Jokers (-3) sampleCards = some sampleCards ∧
    Jokers 0 sampleCards = some sampleCards :=
  ⟨by decide, Jokers_nonpositive (-3) (by decide) sampleCards,
    Jokers_nonpositive 0 (by decide) sampleCards⟩

/-! ## Shuffle -/

theorem shuffleLoop_eq (cs : List Card) (z : Card) (rest : List Nat)
    (hrest : ∀ j ∈ rest, j < cs.length) (i : Nat) (done zs : List Card)
    (hdone : done.length = i) (hzs : zs.length = rest.length) :
    shuffleLoop rest i { cards := cs, ret := done ++ zs }
      = some { cards := cs, ret := done ++ rest.map (fun j => (cs[j]?).getD z) } := by
  induction rest generalizing i done zs with
  | nil =>
    have : zs = [] := List.length_eq_zero.mp hzs
    simp [shuffleLoop, this]
  | cons j rest ih =>
    cases zs with
    | nil => simp at hzs
    | cons z0 zs =>
      have hj : j < cs.length := hrest j (List.mem_cons_self _ _)
      have hget : cs[j]? = some cs[j] := List.getElem?_eq_getElem hj
      have hlen : i < (done ++ z0 :: zs).length := by simp; omega
      have hset : (done ++ z0 :: zs).set i cs[j] = (done ++ [cs[j]]) ++ zs := by
        rw [List.set_append_right _ _ (by omega)]
        simp [hdone]
      have hrec := ih (fun k hk => hrest k (List.mem_cons_of_mem _ hk)) (i + 1)
        (done ++ [cs[j]]) zs (by simp [hdone]) (by simpa using hzs)
      simp only [shuffleLoop, shuffleStep, hget, hlen, if_true, Option.some_bind, hset]
      rw [hrec]
      simp [hget]

/-- Reading a slice at the indices `0..n-1` in order gives the slice. -/
theorem map_getD_range (cs : List Card) (z : Card) :
    (List.range cs.length).map (fun j => (cs[j]?).getD z) = cs := by
  apply List.ext_getElem
  · simp
  · intro i h1 h2
    simp [List.getElem?_eq_getElem h2]

/-- For a permutation of the indices, the body of `Shuffle` ends without panic
with `cards` as it was and `ret` read in the order of the permutation. -/
theorem shuffleRun_eq (perm : List Nat) (cs : List Card)
    (hp : perm.Perm (List.range cs.length)) :
    shuffleRun perm cs
      = some (ShuffleState.mk cs (perm.map (fun j => (cs[j]?).getD { Suit := 0, Rank := 0 }))) := by
  have hmem : ∀ j ∈ perm, j < cs.length := fun j hj => List.mem_range.mp (hp.subset hj)
  have hlen : perm.length = cs.length := by simpa using hp.length_eq
  have h := shuffleLoop_eq cs { Suit := 0, Rank := 0 } perm hmem 0 []
    (List.replicate cs.length { Suit := 0, Rank := 0 }) rfl (by simp [hlen])
  simpa [shuffleRun] using h

/-- C8: for every sequence `cs` of length `n`, when the random source
returns a permutation of the indices `0..n-1`, `Shuffle(cs)` reads only
indices within bounds (it does not panic), its `i`-th output card is
`cs[perm[i]]`, the output has length `n` and the same multiset of cards as
`cs`, and `cs` itself is left unchanged.  In particular `New(Shuffle)` is a
permutation of the standard 52 cards. -/
theorem Shuffle_permutes (randPerm : Int → Nat → List Nat) (now : Int)
    (hp : ∀ n, (randPerm now n).Perm (List.range n)) (cs : List Card) :
    (∃ st, shuffleRun (randPerm now cs.length) cs = some st ∧
      Shuffle randPerm now cs = some st.ret ∧
      st.cards = cs ∧ st.ret.length = cs.length ∧ st.ret.Perm cs ∧
      (st.ret : Multiset Card) = (cs : Multiset Card) ∧
      ∀ i, i < cs.length → ∃ j, (randPerm now cs.length)[i]? = some j ∧
        j < cs.length ∧ st.ret[i]? = cs[j]?) ∧
    (∃ out deck, New [Shuffle randPerm now] = some out ∧ New [] = some deck ∧
      out.Perm deck ∧ out.length = 52) := by
  have main : ∀ cs : List Card, ∃ st, shuffleRun (randPerm now cs.length) cs = some st ∧
      Shuffle randPerm now cs = some st.ret ∧
      st.cards = cs ∧ st.ret.length = cs.length ∧ st.ret.Perm cs ∧
      ∀ i, i < cs.length → ∃ j, (randPerm now cs.length)[i]? = some j ∧
        j < cs.length ∧ st.ret[i]? = cs[j]? := by
    intro cs
    have hrun := shuffleRun_eq (randPerm now cs.length) cs (hp cs.length)
    have hlen : (randPerm now cs.length).length = cs.length := by
      simpa using (hp cs.length).length_eq
    refine ⟨_, hrun, by simp [Shuffle, hrun], rfl, by simpa using hlen, ?_, ?_⟩
    · have h := (hp cs.length).map (fun j => (cs[j]?).getD { Suit := 0, Rank := 0 })
      rw [map_getD_range] at h
      exact h
    · intro i hi
      have hi' : i < (randPerm now cs.length).length := by omega
      have hj : (randPerm now cs.length)[i] < cs.length :=
        List.mem_range.mp ((hp cs.length).subset (List.getElem_mem _))
      refine ⟨_, List.getElem?_eq_getElem hi', hj, ?_⟩
      simp [List.getElem?_eq_getElem hi', List.getElem?_eq_getElem hj]
  constructor
  · obtain ⟨st, h1, h2, h3, h4, h5, h6⟩ := main cs
    exact ⟨st, h1, h2, h3, h4, h5, Multiset.coe_eq_coe.mpr h5, h6⟩
  · obtain ⟨st, _, h2, _, h4, h5, _⟩ := main newCards
    exact ⟨st.ret, newCards, by rw [New_single]; exact h2, rfl, h5, by rw [h4]; decide⟩

theorem Shuffle_permutes_witness :
    (∀ n, (reversePerm 0 n).Perm (List.range n)) ∧
    (∃ st, shuffleRun (reversePerm 0 sampleCards.length) sampleCards = some st ∧
      Shuffle reversePerm 0 sampleCards = some st.ret ∧
      st.cards = sampleCards ∧ st.ret.length = sampleCards.length ∧
      st.ret.Perm sampleCards ∧
      (st.ret : Multiset Card) = (sampleCards : Multiset Card) ∧
      ∀ i, i < sampleCards.length →
        ∃ j, (reversePerm 0 sampleCards.length)[i]? = some j ∧
          j < sampleCards.length ∧ st.ret[i]? = sampleCards[j]?) ∧
    (∃ out deck, New [Shuffle reversePerm 0] = some out ∧
      New [] = some deck ∧ out.Perm deck ∧ out.length = 52) :=
  ⟨fun _ => List.reverse_perm _,
    Shuffle_permutes reversePerm 0
      (fun _ => List.reverse_perm _) sampleCards⟩

/-! ## Jokers and the default sort -/

/-- A rearrangement of `l` with keys in non-decreasing order is `l` itself
when `l` is in that order and no two of its cards share a key. -/
theorem sorted_perm_unique (out l : List Card) (hperm : out.Perm l)
    (hout : out.Pairwise (fun a b => absRank a ≤ absRank b))
    (hl : l.Pairwise (fun a b => absRank a ≤ absRank b))
    (hinj : ∀ a ∈ l, ∀ b ∈ l, absRank a = absRank b → a = b) : out = l := by
  refine List.Perm.eq_of_sorted ?_ hout hl hperm
  intro a b ha hb h1 h2
  exact hinj a (hperm.subset ha) b hb (Nat.le_antisymm h1 h2)

set_option maxRecDepth 100000 in
/-- The deck built by the nested loops has non-decreasing keys. -/
theorem newCards_sorted : newCards.Pairwise (fun a b => absRank a ≤ absRank b) := by
  decide

set_option maxRecDepth 100000 in
/-- No two cards of the deck built by the nested loops share a key. -/
theorem newCards_key_injective :
    ∀ a ∈ newCards, ∀ b ∈ newCards, absRank a = absRank b → a = b := by
  decide

/-- Under the contract of `sort.Slice`, sorting the deck built by the nested
loops returns it as it is. -/
theorem New_DefaultSort (sortSlice : SliceSorter) (hs : SliceSortSpec sortSlice) :
    New [DefaultSort sortSlice] = some newCards := by
  obtain ⟨out, h, hp, hsorted⟩ := DefaultSort_spec sortSlice hs newCards
  rw [New_single, h,
    sorted_perm_unique out newCards hp hsorted newCards_sorted newCards_key_injective]

/-- A joker that stands before a standard card in a sequence ordered by key
is the joker of rank 0, and the card is the King of Hearts. -/
theorem joker_before_standard (a b : Card) (ha : a.Suit = Joker) (hb : isStandard b = true)
    (hle : absRank a ≤ absRank b) :
    a = { Suit := Joker, Rank := 0 } ∧ b = { Suit := Heart, Rank := King } := by
  obtain ⟨sa, ra⟩ := a
  obtain ⟨sb, rb⟩ := b
  simp only [isStandard, suits, List.mem_cons, List.mem_singleton, List.not_mem_nil, or_false,
    Bool.and_eq_true, decide_eq_true_eq] at hb
  obtain ⟨⟨hsb, h1⟩, h2⟩ := hb
  simp only at ha
  subst ha
  have h1' : 1 ≤ rb.val := h1
  have h2' : rb.val ≤ 13 := h2
  have hkey : 52 + ra.val ≤ sb.val * 13 + rb.val := hle
  have hsb' : sb.val ≤ 3 := by
    rcases hsb with rfl | rfl | rfl | rfl <;> decide
  have hra : ra.val = 0 := by omega
  have hrb : rb.val = 13 := by omega
  have hsv : sb.val = 3 := by omega
  refine ⟨?_, ?_⟩
  · congr 1
    exact Fin.ext hra
  · congr 1
    · exact Fin.ext hsv
    · exact Fin.ext hrb

set_option maxRecDepth 100000 in
/-- The standard deck followed by the joker of index 1 has non-decreasing keys. -/
theorem deck53_sorted :
    (newCards ++ [jokerCard 1]).Pairwise (fun a b => absRank a ≤ absRank b) := by
  decide

set_option maxRecDepth 100000 in
/-- No two cards of the standard deck followed by the joker of index 1 share
a key. -/
theorem deck53_key_injective :
    ∀ a ∈ newCards ++ [jokerCard 1], ∀ b ∈ newCards ++ [jokerCard 1],
      absRank a = absRank b → a = b := by
  decide

set_option maxRecDepth 100000 in
/-- The joker of index 0 fits into the standard deck followed by the joker of
index 1 at position 51 or 52 only. -/
theorem deck53_split :
    ∀ n, n < 54 →
      (∀ a ∈ (newCards ++ [jokerCard 1]).take n, absRank a ≤ absRank (jokerCard 0)) →
      (∀ b ∈ (newCards ++ [jokerCard 1]).drop n, absRank (jokerCard 0) ≤ absRank b) →
      n = 51 ∨ n = 52 := by
  decide

/-- Under the contract of `sort.Slice`, sorting the deck with two jokers
leaves the King of Hearts and the joker of index 0 next to each other, in
one order or the other, and everything else in place. -/
theorem New_Jokers2_DefaultSort (sortSlice : SliceSorter) (hs : SliceSortSpec sortSlice) :
    ∃ out, New [Jokers 2, DefaultSort sortSlice] = some out ∧
      (out = newCards ++ [jokerCard 0, jokerCard 1] ∨
       out = newCards.take 51 ++
          [jokerCard 0, { Suit := Heart, Rank := King }, jokerCard 1]) := by
  obtain ⟨out, h, hp, hsorted⟩ :=
    DefaultSort_spec sortSlice hs (newCards ++ [jokerCard 0, jokerCard 1])
  have hnew : New [Jokers 2, DefaultSort sortSlice] = some out := by
    have := New_snoc [Jokers 2] (DefaultSort sortSlice)
    rw [List.singleton_append] at this
    rw [this, New_single, Jokers_eq]
    exact h
  refine ⟨out, hnew, ?_⟩
  -- without the joker of index 0 the order is forced
  have herase : out.erase (jokerCard 0) = newCards ++ [jokerCard 1] := by
    have hp' := hp.erase (jokerCard 0)
    have he : (newCards ++ [jokerCard 0, jokerCard 1]).erase (jokerCard 0)
        = newCards ++ [jokerCard 1] := by decide
    rw [he] at hp'
    exact sorted_perm_unique _ _ hp' (hsorted.sublist (List.erase_sublist _ _))
      deck53_sorted deck53_key_injective
  -- the place of the joker of index 0
  have hmem : jokerCard 0 ∈ out := hp.symm.subset (by simp)
  obtain ⟨l1, l2, hsplit, hnot⟩ := List.eq_append_cons_of_mem hmem
  have hcat : l1 ++ l2 = newCards ++ [jokerCard 1] := by
    rw [← herase, hsplit, List.erase_append_right _ hnot, List.erase_cons_head]
  rw [hsplit] at hsorted
  obtain ⟨_, h2, h3⟩ := List.pairwise_append.mp hsorted
  have hl1 : l1 = (newCards ++ [jokerCard 1]).take l1.length := by
    rw [← hcat, List.take_left]
  have hl2 : l2 = (newCards ++ [jokerCard 1]).drop l1.length := by
    rw [← hcat, List.drop_left]
  have hlen : l1.length < 54 := by
    have := congrArg List.length hcat
    have h52 : newCards.length = 52 := by decide
    simp only [List.length_append, List.length_singleton, h52] at this
    omega
  have hn := deck53_split l1.length hlen
    (by rw [← hl1]; intro a ha; exact h3 a ha _ (List.mem_cons_self _ _))
    (by rw [← hl2]; intro b hb; exact (List.pairwise_cons.mp h2).1 b hb)
  rw [hsplit, hl1, hl2]
  rcases hn with hn | hn <;> rw [hn]
  · right; decide
  · left; decide

/-- What the contract of `sort.Slice` alone gives about jokers: in
`DefaultSort(cs)` a joker stands before a card of the four standard suits
only if it is the joker of index 0 and the card is the King of Hearts, whose
keys are both 52; and `New(Jokers(2), DefaultSort)` is the deck
`New(Jokers(2))` up to the order of these two cards. -/
theorem DefaultSort_jokers_last (sortSlice : SliceSorter) (hs : SliceSortSpec sortSlice)
    (cs : List Card) :
    (∃ out, DefaultSort sortSlice cs = some out ∧
      ∀ (i j : Nat) (a b : Card), out[i]? = some a → out[j]? = some b →
        a.Suit = Joker → isStandard b = true →
        (a ≠ { Suit := Joker, Rank := 0 } ∨ b ≠ { Suit := Heart, Rank := King }) → j < i) ∧
    (∃ out, New [Jokers 2, DefaultSort sortSlice] = some out ∧
      (out = newCards ++ [{ Suit := Joker, Rank := 0 }, { Suit := Joker, Rank := 1 }] ∨
       out = newCards.take 51 ++ [{ Suit := Joker, Rank := 0 },
          { Suit := Heart, Rank := King }, { Suit := Joker, Rank := 1 }])) := by
  constructor
  · obtain ⟨out, h, _, hsorted⟩ := DefaultSort_spec sortSlice hs cs
    refine ⟨out, h, ?_⟩
    intro i j a b hi hj ha hb hne
    obtain ⟨hi', hia⟩ := List.getElem?_eq_some.mp hi
    obtain ⟨hj', hjb⟩ := List.getElem?_eq_some.mp hj
    rcases Nat.lt_trichotomy i j with hlt | heq | hgt
    · have hle := List.pairwise_iff_getElem.mp hsorted i j hi' hj' hlt
      rw [hia, hjb] at hle
      obtain ⟨h1, h2⟩ := joker_before_standard a b ha hb hle
      rcases hne with hne | hne
      · exact absurd h1 hne
      · exact absurd h2 hne
    · subst heq
      have hab : a = b := by rw [← hia, ← hjb]
      subst hab
      have hstd : isStandard a = false := by
        obtain ⟨sa, ra⟩ := a
        simp only at ha
        subst ha
        simp [isStandard, suits, Joker, Spade, Diamond, Club, Heart]
      rw [hstd] at hb
      exact absurd hb (by decide)
    · exact hgt
  · exact New_Jokers2_DefaultSort sortSlice hs

theorem DefaultSort_jokers_last_witness :
    SliceSortSpec insertionSort ∧
    (∃ out, DefaultSort insertionSort sampleCards = some out ∧
      ∀ (i j : Nat) (a b : Card), out[i]? = some a → out[j]? = some b →
        a.Suit = Joker → isStandard b = true →
        (a ≠ { Suit := Joker, Rank := 0 } ∨ b ≠ { Suit := Heart, Rank := King }) → j < i) ∧
    (∃ out, New [Jokers 2, DefaultSort insertionSort] = some out ∧
      (out = newCards ++ [{ Suit := Joker, Rank := 0 }, { Suit := Joker, Rank := 1 }] ∨
       out = newCards.take 51 ++ [{ Suit := Joker, Rank := 0 },
          { Suit := Heart, Rank := King }, { Suit := Joker, Rank := 1 }])) :=
  ⟨insertionSort_spec, DefaultSort_jokers_last insertionSort insertionSort_spec sampleCards⟩

/-- C10: when `Jokers(n)` with `n >= 0` is the last transformation, the
jokers stay at the very end: `New(opts..., Jokers(n))` is `New(opts...)`
followed by the `n` jokers of indices `0..n-1` in that order.  In particular
`New(DefaultSort, Jokers(2))` is the 52 standard cards in sorted order
followed by the jokers of indices 0 and 1.
`sort.Slice` is any function that meets its documented contract. -/
theorem Jokers_last_stay_last (opts : List Transformation) (n : Int) (hn : 0 ≤ n)
    (sortSlice : SliceSorter) (hs : SliceSortSpec sortSlice) :
    New (opts ++ [Jokers n]) = (New opts).map (fun deck => deck ++ jokerCards n.toNat) ∧
    (∀ deck, New opts = some deck →
      ∃ out, New (opts ++ [Jokers n]) = some out ∧ (out.length : Int) = deck.length + n ∧
        out.take deck.length = deck ∧
        out.drop deck.length = (List.range n.toNat).map jokerCard) ∧
    (∃ sorted, New [DefaultSort sortSlice] = some sorted ∧ sorted.Perm newCards ∧
      sorted.Chain' (fun a b => absRank a ≤ absRank b) ∧
      New [DefaultSort sortSlice, Jokers 2]
        = some (sorted ++ [{ Suit := Joker, Rank := 0 }, { Suit := Joker, Rank := 1 }])) := by
  have hsnoc : New (opts ++ [Jokers n])
      = (New opts).map (fun deck => deck ++ jokerCards n.toNat) := by
    rw [New_snoc]
    cases New opts with
    | none => rfl
    | some d => simp [Jokers_eq]
  refine ⟨hsnoc, ?_, ?_⟩
  · intro deck hdeck
    refine ⟨deck ++ jokerCards n.toNat, by rw [hsnoc, hdeck]; rfl, ?_, by simp, by simp [jokerCards]⟩
    rw [List.length_append, jokerCards_length]
    push_cast
    rw [Int.toNat_of_nonneg hn]
  · refine ⟨newCards, New_DefaultSort sortSlice hs, List.Perm.refl _, newCards_sorted.chain', ?_⟩
    have := New_snoc [DefaultSort sortSlice] (Jokers 2)
    rw [List.singleton_append] at this
    rw [this, New_DefaultSort sortSlice hs]
    exact Jokers_eq 2 newCards

theorem Jokers_last_stay_last_witness :
    (0 : Int) ≤ 2 ∧ SliceSortSpec insertionSort ∧
    New ([Shuffle reversePerm 0] ++ [Jokers 2])
      = (New [Shuffle reversePerm 0]).map (fun deck => deck ++ jokerCards (2 : Int).toNat) ∧
    (∀ deck, New [Shuffle reversePerm 0] = some deck →
      ∃ out, New ([Shuffle reversePerm 0] ++ [Jokers 2]) = some out ∧
        (out.length : Int) = deck.length + 2 ∧
        out.take deck.length = deck ∧
        out.drop deck.length = (List.range (2 : Int).toNat).map jokerCard) ∧
    (∃ sorted, New [DefaultSort insertionSort] = some sorted ∧ sorted.Perm newCards ∧
      sorted.Chain' (fun a b => absRank a ≤ absRank b) ∧
      New [DefaultSort insertionSort, Jokers 2]
        = some (sorted ++ [{ Suit := Joker, Rank := 0 }, { Suit := Joker, Rank := 1 }])) :=
  ⟨by decide, insertionSort_spec,
    Jokers_last_stay_last [Shuffle reversePerm 0] 2 (by decide) insertionSort insertionSort_spec⟩

/-! ## Rendering -/

/-- C12: for every card `c` whose suit is not Joker, `c.String()` is the
label of the rank, then `" of "`, then the label of the suit, then `"s"`;
with the labels "Ace" and "Spade" the Ace of Spades renders as
"Ace of Spades"; rendering yields a string for every value of `Card`.
The labels are those of any pair of methods `Suit.String`, `Rank.String`. -/
theorem CardString_standard (suitString : Suit → String) (rankString : Rank → String)
    (c : Card) (hc : c.Suit ≠ Joker) :
    CardString suitString rankString c
      = rankString c.Rank ++ " of " ++ suitString c.Suit ++ "s" ∧
    (rankString Ace = "Ace" → suitString Spade = "Spade" →
      CardString suitString rankString { Suit := Spade, Rank := Ace } = "Ace of Spades") ∧
    (∀ c' : Card, ∃ s : String, CardString suitString rankString c' = s) := by
  refine ⟨?_, ?_, fun c' => ⟨_, rfl⟩⟩
  · simp [CardString, hc]
  · intro hr hs
    have hne : Spade ≠ Joker := by decide
    simp only [CardString, hne, if_false, hr, hs]
    decide

theorem CardString_standard_witness :
    ({ Suit := Heart, Rank := Queen } : Card).Suit ≠ Joker ∧
    CardString SuitString RankString { Suit := Heart, Rank := Queen }
      = RankString Queen ++ " of " ++ SuitString Heart ++ "s" ∧
    CardString SuitString RankString { Suit := Heart, Rank := Queen } = "Queen of Hearts" ∧
    CardString SuitString RankString { Suit := Spade, Rank := Ace } = "Ace of Spades" ∧
    (∀ c' : Card, ∃ s : String, CardString SuitString RankString c' = s) :=
  have h := CardString_standard SuitString RankString { Suit := Heart, Rank := Queen }
    (by decide)
  ⟨by decide, h.1, by decide, h.2.1 (by decide) (by decide), h.2.2⟩

/-- C13: for every rank `r`, the joker of rank `r` renders as the label of
the suit Joker, that is as "Joker" when that is the label: the rendering of
a joker does not depend on its rank, and any two jokers render identically.
The labels are those of any pair of methods `Suit.String`, `Rank.String`. -/
theorem CardString_joker (suitString : Suit → String) (rankString : Rank → String)
    (r r' : Rank) :
    CardString suitString rankString { Suit := Joker, Rank := r } = suitString Joker ∧
    (suitString Joker = "Joker" →
      CardString suitString rankString { Suit := Joker, Rank := r } = "Joker") ∧
    CardString suitString rankString { Suit := Joker, Rank := r }
      = CardString suitString rankString { Suit := Joker, Rank := r' } := by
  refine ⟨by simp [CardString], ?_, by simp [CardString]⟩
  intro h
  simp [CardString, h]

/-- With the labels of the constant names, every joker renders as "Joker". -/
theorem CardString_joker_label (r : Rank) :
    CardString SuitString RankString { Suit := Joker, Rank := r } = "Joker" := by
  have : SuitString Joker = "Joker" := by decide
  simp [CardString, this]

/-! ## Empty input -/

/-- The inner loop gives the same outcome with two comparators that agree on
the positions of the slice. -/
theorem insertionInner_congr (x : List Card) (less less' : LessFn)
    (hagree : ∀ (cur : List Card) (i j : Nat), cur.Perm x → i < x.length → j < x.length →
      less cur i j = less' cur i j)
    (j : Nat) (data : List Card) (hdata : data.Perm x) (hj : j < x.length) :
    insertionInner less j data = insertionInner less' j data := by
  induction j generalizing data with
  | zero => simp [insertionInner]
  | succ j ih =>
    rw [insertionInner, insertionInner, hagree data (j + 1) j hdata hj (by omega)]
    cases less' data (j + 1) j with
    | none => rfl
    | some b =>
      cases b with
      | false => rfl
      | true => exact ih _ ((swapAt_adjacent_perm data j).trans hdata) (by omega)

/-- The insertion sort applies the comparator to positions of the slice only. -/
theorem insertionSort_callsInRange : CallsInRange insertionSort := by
  intro x less less' hagree
  have key : ∀ (idx : List Nat) (d : List Card), (∀ i ∈ idx, i < x.length) → d.Perm x →
      idx.foldlM (fun d i => insertionInner less i d) d
        = idx.foldlM (fun d i => insertionInner less' i d) d := by
    intro idx
    induction idx with
    | nil => intro d _ _; rfl
    | cons i idx ih =>
      intro d hidx hd
      rw [List.foldlM_cons, List.foldlM_cons,
        insertionInner_congr x less less' hagree i d hd (hidx i (List.mem_cons_self _ _))]
      cases hi : insertionInner less' i d with
      | none => rfl
      | some d' =>
        have hd' : d'.Perm x := (insertionInner_perm less' i d d' hi).trans hd
        exact ih d' (fun k hk => hidx k (List.mem_cons_of_mem _ hk)) hd'
  refine key _ x ?_ (List.Perm.refl _)
  intro i hi
  rw [List.mem_range'_1] at hi
  omega

/-- Under the contract of `sort.Slice`, sorting the empty slice with a
comparator that compares by a strict weak order returns the empty slice. -/
theorem sortSlice_nil (sortSlice : SliceSorter) (hs : SliceSortSpec sortSlice)
    (hr : CallsInRange sortSlice) (less : LessFn) : sortSlice [] less = some [] := by
  obtain ⟨y, hy, _⟩ := hs.sorted [] (Less []) keyLess keyLess_strictWeak (Less_comparesBy [])
  have hnil : y = [] := List.Perm.eq_nil (hs.perm [] (Less []) y hy)
  rw [hr [] less (Less []) (fun cur i j _ hi _ => absurd hi (by simp)), hy, hnil]

/-- C14, the claim as stated fails: `Sort(less)` calls `less(cards)` before
it sorts, so with a factory that reads `cards[0]`, or with a nil factory,
`Sort(less)` panics on the empty sequence, whatever `sort.Slice` does. -/
theorem CustomSort_factory_panics :
    firstCardLess [] = none ∧
    CustomSort insertionSort firstCardLess [] = none ∧
    CustomSort insertionSort nilLess [] = none ∧
    (∀ sortSlice : SliceSorter, CustomSort sortSlice firstCardLess [] = none) ∧
    ¬ (∀ less : List Card → Option LessFn, CustomSort insertionSort less [] = some []) := by
  refine ⟨rfl, rfl, rfl, fun _ => rfl, ?_⟩
  intro h
  have := h firstCardLess
  exact absurd this (by simp [CustomSort, firstCardLess])

/-- C14, amended: on the empty sequence `DefaultSort` and `Shuffle` return
the empty sequence without failure, and so does `Sort(less)` for every
comparator factory `less` whose call `less(cards)` returns: no index is read
(an index out of range would be a panic, `none`), and the comparator that was
returned is not called (one that panics at every call makes no difference).
When the call `less(cards)` panics, `Sort(less)` panics.
`sort.Slice` is any function that meets its contract and hands only positions
of the slice to the comparator, and `rand.Perm(0)` is the permutation of no
index. -/
theorem empty_input (sortSlice : SliceSorter) (hs : SliceSortSpec sortSlice)
    (hr : CallsInRange sortSlice) (randPerm : Int → Nat → List Nat) (now : Int)
    (hp : (randPerm now 0).Perm (List.range 0)) :
    DefaultSort sortSlice [] = some [] ∧
    (∀ (less : List Card → Option LessFn) (closure : LessFn), less [] = some closure →
      CustomSort sortSlice less [] = some []) ∧
    (∀ less : List Card → Option LessFn, less [] = none →
      CustomSort sortSlice less [] = none) ∧
    CustomSort sortSlice panicLess [] = some [] ∧
    shuffleRun (randPerm now 0) [] = some { cards := [], ret := [] } ∧
    Shuffle randPerm now [] = some [] := by
  have hperm : randPerm now 0 = [] := List.Perm.eq_nil (by simpa using hp)
  have hrun : shuffleRun (randPerm now 0) [] = some { cards := [], ret := [] } := by
    rw [hperm]; rfl
  refine ⟨sortSlice_nil sortSlice hs hr _, ?_, ?_, sortSlice_nil sortSlice hs hr _, hrun, ?_⟩
  · intro less closure h
    simp only [CustomSort, h]
    exact sortSlice_nil sortSlice hs hr closure
  · intro less h
    simp only [CustomSort, h]
  · simp only [Shuffle, List.length_nil, hrun, Option.map_some']

theorem empty_input_witness :
    SliceSortSpec insertionSort ∧ CallsInRange insertionSort ∧
    (reversePerm 0 0).Perm (List.range 0) ∧
    DefaultSort insertionSort [] = some [] ∧
    (∀ (less : List Card → Option LessFn) (closure : LessFn), less [] = some closure →
      CustomSort insertionSort less [] = some []) ∧
    (∀ less : List Card → Option LessFn, less [] = none →
      CustomSort insertionSort less [] = none) ∧
    CustomSort insertionSort panicLess [] = some [] ∧
    shuffleRun (reversePerm 0 0) [] = some { cards := [], ret := [] } ∧
    Shuffle reversePerm 0 [] = some [] :=
  ⟨insertionSort_spec, insertionSort_callsInRange, List.Perm.refl _,
    empty_input insertionSort insertionSort_spec insertionSort_callsInRange reversePerm 0
      (List.Perm.refl _)⟩

/-! ## The sort key -/

set_option maxRecDepth 100000 in
/-- A standard card has a suit ordinal of at most 3 and a rank from 1 to 13. -/
theorem isStandard_iff (c : Card) :
    isStandard c = true ↔ c.Suit.val ≤ 3 ∧ 1 ≤ c.Rank.val ∧ c.Rank.val ≤ 13 := by
  have hs : ∀ s : Suit, s ∈ suits ↔ s.val ≤ 3 := by decide
  simp only [isStandard, Bool.and_eq_true, decide_eq_true_eq, hs]
  constructor
  · rintro ⟨⟨h1, h2⟩, h3⟩
    exact ⟨h1, h2, h3⟩
  · rintro ⟨h1, h2, h3⟩
    exact ⟨⟨h1, h2⟩, h3⟩

/-- The key written out: thirteen times the suit ordinal plus the rank. -/
theorem absRank_eq (c : Card) : absRank c = c.Suit.val * 13 + c.Rank.val := rfl

set_option maxRecDepth 100000 in
/-- The keys of the deck built by the nested loops are 1, 2, ..., 52 in order. -/
theorem newCards_keys : newCards.map absRank = List.range' 1 52 := by
  decide

/-- C15: on standard cards the key `absRank` is strictly monotone in the
lexicographic order on (suit, rank): a card of a lower suit has a strictly
smaller key, within one suit a lower rank has a strictly smaller key; so the
key is injective on the standard cards, and its values there are exactly
1..52. -/
theorem absRank_standard (a b : Card) (ha : isStandard a = true) (hb : isStandard b = true) :
    (a.Suit < b.Suit → absRank a < absRank b) ∧
    (a.Suit = b.Suit → a.Rank < b.Rank → absRank a < absRank b) ∧
    (absRank a = absRank b → a = b) ∧
    (1 ≤ absRank a ∧ absRank a ≤ 52) ∧
    (∀ k : Nat, 1 ≤ k → k ≤ 52 → ∃ c, isStandard c = true ∧ absRank c = k) := by
  rw [isStandard_iff] at ha hb
  obtain ⟨sa, ra⟩ := a
  obtain ⟨sb, rb⟩ := b
  simp only [absRank_eq] at *
  refine ⟨?_, ?_, ?_, ?_, ?_⟩
  · intro h
    have h' : sa.val < sb.val := h
    omega
  · intro h1 h2
    have h1' : sa.val = sb.val := congrArg Fin.val h1
    have h2' : ra.val < rb.val := h2
    omega
  · intro h
    have h1 : sa.val = sb.val := by omega
    have h2 : ra.val = rb.val := by omega
    rw [Fin.ext h1, Fin.ext h2]
  · omega
  · intro k h1 h2
    have hk : k ∈ newCards.map absRank := by
      rw [newCards_keys, List.mem_range'_1]
      omega
    obtain ⟨c, hc, hkey⟩ := List.mem_map.mp hk
    refine ⟨c, ?_, hkey⟩
    obtain ⟨h3, h4, h5⟩ := (mem_newCards c).mp hc
    simp only [isStandard, h3, h4, h5, decide_True, Bool.and_self]

theorem absRank_standard_witness :
    isStandard { Suit := Diamond, Rank := King } = true ∧
    isStandard { Suit := Club, Rank := Ace } = true ∧
    ((({ Suit := Diamond, Rank := King } : Card).Suit < ({ Suit := Club, Rank := Ace } : Card).Suit →
      absRank { Suit := Diamond, Rank := King } < absRank { Suit := Club, Rank := Ace }) ∧
    (({ Suit := Diamond, Rank := King } : Card).Suit = ({ Suit := Club, Rank := Ace } : Card).Suit →
      ({ Suit := Diamond, Rank := King } : Card).Rank < ({ Suit := Club, Rank := Ace } : Card).Rank →
      absRank { Suit := Diamond, Rank := King } < absRank { Suit := Club, Rank := Ace }) ∧
    (absRank { Suit := Diamond, Rank := King } = absRank { Suit := Club, Rank := Ace } →
      ({ Suit := Diamond, Rank := King } : Card) = { Suit := Club, Rank := Ace }) ∧
    (1 ≤ absRank { Suit := Diamond, Rank := King } ∧
      absRank { Suit := Diamond, Rank := King } ≤ 52) ∧
    (∀ k : Nat, 1 ≤ k → k ≤ 52 → ∃ c, isStandard c = true ∧ absRank c = k)) :=
  ⟨by decide, by decide,
    absRank_standard { Suit := Diamond, Rank := King } { Suit := Club, Rank := Ace }
      (by decide) (by decide)⟩

/-! ## Shuffle and its seed -/

/-- The seed `time.Now().Unix()` is the time rounded down to whole seconds:
it is `s` exactly for the instants of the second that starts at `s`. -/
theorem unixSeconds_eq_iff (clock s : Int) :
    unixSeconds clock = s ↔ s * 1000000000 ≤ clock ∧ clock < (s + 1) * 1000000000 := by
  unfold unixSeconds
  omega

/-- C16: `Shuffle` is a function of its seed and its input.  The seed is the
current time in whole seconds, `time.Now().Unix()`: it is the same for all
the instants of one second.  Two calls that use the same seed on sequences
with the same cards in the same order return the same sequence, and the
returned sequence is the input read in the order of the permutation the
generator draws for that seed and the length of the input. -/
theorem Shuffle_deterministic (randPerm : Int → Nat → List Nat) (clock clock' : Int)
    (cs cs' : List Card) (hseed : unixSeconds clock = unixSeconds clock') (hcs : cs = cs') :
    ShuffleAt randPerm clock cs = ShuffleAt randPerm clock' cs' ∧
    ShuffleAt randPerm clock cs = Shuffle randPerm (unixSeconds clock) cs ∧
    (unixSeconds clock * 1000000000 ≤ clock ∧
      clock < (unixSeconds clock + 1) * 1000000000) ∧
    (∀ t t' s : Int, s * 1000000000 ≤ t → t < (s + 1) * 1000000000 →
      s * 1000000000 ≤ t' → t' < (s + 1) * 1000000000 →
      ShuffleAt randPerm t cs = ShuffleAt randPerm t' cs) ∧
    ShuffleAt randPerm clock cs
      = (shuffleRun (randPerm (unixSeconds clock) cs.length) cs).map (fun st => st.ret) ∧
    (∀ randPerm' : Int → Nat → List Nat,
      randPerm' (unixSeconds clock) cs.length = randPerm (unixSeconds clock) cs.length →
      ShuffleAt randPerm' clock cs = ShuffleAt randPerm clock cs) := by
  subst hcs
  refine ⟨?_, rfl, (unixSeconds_eq_iff clock _).mp rfl, ?_, rfl, ?_⟩
  · simp only [ShuffleAt, hseed]
  · intro t t' s h1 h2 h3 h4
    have ht : unixSeconds t = s := (unixSeconds_eq_iff t s).mpr ⟨h1, h2⟩
    have ht' : unixSeconds t' = s := (unixSeconds_eq_iff t' s).mpr ⟨h3, h4⟩
    simp only [ShuffleAt, ht, ht']
  · intro randPerm' h
    simp only [ShuffleAt, Shuffle, h]

theorem Shuffle_deterministic_witness :
    unixSeconds 1700000000250000000 = unixSeconds 1700000000750000000 ∧
    sampleCards = sampleCards ∧
    ShuffleAt rotatePerm 1700000000250000000 sampleCards
      = ShuffleAt rotatePerm 1700000000750000000 sampleCards ∧
    ShuffleAt rotatePerm 1700000000250000000 sampleCards
      = Shuffle rotatePerm (unixSeconds 1700000000250000000) sampleCards ∧
    (unixSeconds 1700000000250000000 * 1000000000 ≤ 1700000000250000000 ∧
      1700000000250000000 < (unixSeconds 1700000000250000000 + 1) * 1000000000) ∧
    (∀ t t' s : Int, s * 1000000000 ≤ t → t < (s + 1) * 1000000000 →
      s * 1000000000 ≤ t' → t' < (s + 1) * 1000000000 →
      ShuffleAt rotatePerm t sampleCards = ShuffleAt rotatePerm t' sampleCards) ∧
    ShuffleAt rotatePerm 1700000000250000000 sampleCards
      = (shuffleRun (rotatePerm (unixSeconds 1700000000250000000) sampleCards.length)
          sampleCards).map (fun st => st.ret) ∧
    (∀ randPerm' : Int → Nat → List Nat,
      randPerm' (unixSeconds 1700000000250000000) sampleCards.length
        = rotatePerm (unixSeconds 1700000000250000000) sampleCards.length →
      ShuffleAt randPerm' 1700000000250000000 sampleCards
        = ShuffleAt rotatePerm 1700000000250000000 sampleCards) :=
  ⟨by decide, rfl,
    Shuffle_deterministic rotatePerm 1700000000250000000 1700000000750000000
      sampleCards sampleCards (by decide) rfl⟩

/-- The result does depend on the seed: with a generator whose permutation
changes with the seed, two calls one second apart return different
sequences. -/
theorem ShuffleAt_next_second :
    unixSeconds 1700000001250000000 = unixSeconds 1700000000250000000 + 1 ∧
    ShuffleAt rotatePerm 1700000000250000000 sampleCards
      ≠ ShuffleAt rotatePerm 1700000001250000000 sampleCards := by
  decide

/-! ## Jokers: keys and ranks -/

/-- The key of the joker of index `k`. -/
theorem absRank_jokerCard (k : Nat) : absRank (jokerCard k) = 52 + k % 256 := rfl

set_option maxRecDepth 100000 in
/-- The card at position `p` of the deck built by the nested loops has key `p + 1`. -/
theorem newCards_key_at : ∀ p, p < 52 → (newCards[p]?).map absRank = some (p + 1) := by
  decide

/-- The deck built by the nested loops has 52 cards. -/
theorem newCards_length : newCards.length = 52 := by decide

/-- In the standard deck followed by at most 256 jokers, the card at position
`p` has key `p + 1` before the jokers and key `p` from the first joker on. -/
theorem deck_key_at (m : Nat) (hm : m ≤ 256) (p : Nat) (a : Card)
    (ha : (newCards ++ jokerCards m)[p]? = some a) :
    (p < 52 → absRank a = p + 1 ∧ newCards[p]? = some a) ∧
    (52 ≤ p → absRank a = p ∧ a = jokerCard (p - 52)) := by
  constructor
  · intro hp
    rw [List.getElem?_append_left (by rw [newCards_length]; exact hp)] at ha
    have h := newCards_key_at p hp
    rw [ha] at h
    exact ⟨by simpa using h, ha⟩
  · intro hp
    rw [List.getElem?_append_right (by rw [newCards_length]; exact hp), newCards_length] at ha
    have hlt : p - 52 < m := by
      have := (List.getElem?_eq_some.mp ha).1
      rwa [jokerCards_length] at this
    rw [jokerCards_get m (p - 52) hlt] at ha
    have ha' : a = jokerCard (p - 52) := (Option.some.inj ha).symm
    refine ⟨?_, ha'⟩
    rw [ha', absRank_jokerCard, Nat.mod_eq_of_lt (by omega)]
    omega

/-- C17: the key of a joker is greater than or equal to the key of every
standard card, and not always greater: the joker of index 0 and the King of
Hearts both have key 52.  So `absRank` is not injective on `New(Jokers(n))`
for any `n >= 1`; for `n <= 256` the positions 51 and 52, which hold these
two cards, are the only two positions of that deck with the same key; and
`Less` puts neither of the two cards before the other. -/
theorem joker_key_collision (n : Int) (hn : 1 ≤ n) :
    (∀ j s : Card, j.Suit = Joker → isStandard s = true → absRank s ≤ absRank j) ∧
    absRank { Suit := Joker, Rank := 0 } = 4 * 13 + 0 ∧
    absRank { Suit := Heart, Rank := King } = 3 * 13 + 13 ∧
    (∃ deck, New [Jokers n] = some deck ∧
      deck[51]? = some { Suit := Heart, Rank := King } ∧
      deck[52]? = some { Suit := Joker, Rank := 0 } ∧
      ¬ (∀ a ∈ deck, ∀ b ∈ deck, absRank a = absRank b → a = b) ∧
      (n ≤ 256 → ∀ (p q : Nat) (a b : Card), p < q → deck[p]? = some a → deck[q]? = some b →
        absRank a = absRank b → p = 51 ∧ q = 52)) ∧
    (∀ cards : List Card,
      Less cards [{ Suit := Heart, Rank := King }, { Suit := Joker, Rank := 0 }] 0 1
        = some false ∧
      Less cards [{ Suit := Heart, Rank := King }, { Suit := Joker, Rank := 0 }] 1 0
        = some false) := by
  refine ⟨?_, rfl, rfl, ?_, fun _ => ⟨rfl, rfl⟩⟩
  · intro j s hj hs
    rw [isStandard_iff] at hs
    have hj' : j.Suit.val = 4 := congrArg Fin.val hj
    rw [absRank_eq, absRank_eq]
    omega
  · have hm : 1 ≤ n.toNat := by omega
    have h51 : (newCards ++ jokerCards n.toNat)[51]? = some { Suit := Heart, Rank := King } := by
      rw [List.getElem?_append_left (by rw [newCards_length]; decide)]
      decide
    have h52 : (newCards ++ jokerCards n.toNat)[52]? = some { Suit := Joker, Rank := 0 } := by
      rw [List.getElem?_append_right (by rw [newCards_length]), newCards_length]
      exact jokerCards_get n.toNat 0 (by omega)
    refine ⟨_, by rw [New_single]; exact Jokers_eq n newCards, h51, h52, ?_, ?_⟩
    · intro hinj
      have := hinj { Suit := Heart, Rank := King } (List.getElem?_mem h51)
        { Suit := Joker, Rank := 0 } (List.getElem?_mem h52) (by decide)
      exact absurd this (by decide)
    · intro hn256 p q a b hpq ha hb hkey
      have hm256 : n.toNat ≤ 256 := by omega
      have hA := deck_key_at n.toNat hm256 p a ha
      have hB := deck_key_at n.toNat hm256 q b hb
      by_cases hp : p < 52 <;> by_cases hq : q < 52
      · have := (hA.1 hp).1
        have := (hB.1 hq).1
        omega
      · have := (hA.1 hp).1
        have := (hB.2 (by omega)).1
        omega
      · omega
      · have := (hA.2 (by omega)).1
        have := (hB.2 (by omega)).1
        omega

theorem joker_key_collision_witness :
    (1 : Int) ≤ 2 ∧
    (∀ j s : Card, j.Suit = Joker → isStandard s = true → absRank s ≤ absRank j) ∧
    absRank { Suit := Joker, Rank := 0 } = 4 * 13 + 0 ∧
    absRank { Suit := Heart, Rank := King } = 3 * 13 + 13 ∧
    (∃ deck, New [Jokers 2] = some deck ∧
      deck[51]? = some { Suit := Heart, Rank := King } ∧
      deck[52]? = some { Suit := Joker, Rank := 0 } ∧
      ¬ (∀ a ∈ deck, ∀ b ∈ deck, absRank a = absRank b → a = b) ∧
      ((2 : Int) ≤ 256 → ∀ (p q : Nat) (a b : Card), p < q → deck[p]? = some a →
        deck[q]? = some b → absRank a = absRank b → p = 51 ∧ q = 52)) ∧
    (∀ cards : List Card,
      Less cards [{ Suit := Heart, Rank := King }, { Suit := Joker, Rank := 0 }] 0 1
        = some false ∧
      Less cards [{ Suit := Heart, Rank := King }, { Suit := Joker, Rank := 0 }] 1 0
        = some false) :=
  ⟨by decide, joker_key_collision 2 (by decide)⟩

/-- The jokers of two indices are the same card exactly when the indices
agree modulo 256. -/
theorem jokerCard_eq_iff (k k' : Nat) : jokerCard k = jokerCard k' ↔ k % 256 = k' % 256 := by
  constructor
  · intro h
    have := congrArg (fun c : Card => c.Rank.val) h
    exact this
  · intro h
    have : toRank k = toRank k' := Fin.ext h
    simp only [jokerCard, this]

/-- The first `m` jokers are pairwise distinct exactly when `m <= 256`. -/
theorem jokerCards_nodup_iff (m : Nat) : (jokerCards m).Nodup ↔ m ≤ 256 := by
  constructor
  · intro h
    by_contra hm
    have h0 : (jokerCards m)[0]? = some (jokerCard 0) := jokerCards_get m 0 (by omega)
    have h256 : (jokerCards m)[256]? = some (jokerCard 256) := jokerCards_get m 256 (by omega)
    have hlen : 256 < (jokerCards m).length := by rw [jokerCards_length]; omega
    have := (List.nodup_iff_getElem?_ne_getElem?.mp h) 0 256 (by decide) hlen
    rw [h0, h256] at this
    exact this rfl
  · intro hm
    refine List.Nodup.map_on ?_ (List.nodup_range m)
    intro x hx y hy hxy
    rw [List.mem_range] at hx hy
    have := (jokerCard_eq_iff x y).mp hxy
    rw [Nat.mod_eq_of_lt (by omega), Nat.mod_eq_of_lt (by omega)] at this
    exact this

/-- C18: the `k`-th joker appended by `Jokers(n)` has rank `k mod 256`, a
`Rank` being an 8-bit unsigned value.  The jokers appended by one call are
pairwise distinct if and only if `n <= 256`; for `n >= 257` the jokers of
indices `k` and `k + 256` are equal cards. -/
theorem Jokers_ranks_mod (n : Int) (cs : List Card) :
    ∃ out, Jokers n cs = some out ∧
      (∀ k : Nat, (k : Int) < n → ∃ c, out[cs.length + k]? = some c ∧
        c.Suit = Joker ∧ c.Rank.val = k % 256) ∧
      ((out.drop cs.length).Nodup ↔ n ≤ 256) ∧
      (∀ k : Nat, (k : Int) + 256 < n → ∃ c, out[cs.length + k]? = some c ∧
        out[cs.length + (k + 256)]? = some c) := by
  refine ⟨_, Jokers_eq n cs, ?_, ?_, ?_⟩
  · intro k hk
    refine ⟨jokerCard k, ?_, rfl, rfl⟩
    rw [List.getElem?_append_right (by omega)]
    simpa using jokerCards_get n.toNat k (by omega)
  · rw [List.drop_left, jokerCards_nodup_iff]
    omega
  · intro k hk
    refine ⟨jokerCard k, ?_, ?_⟩
    · rw [List.getElem?_append_right (by omega)]
      simpa using jokerCards_get n.toNat k (by omega)
    · rw [List.getElem?_append_right (by omega)]
      have h := jokerCards_get n.toNat (k + 256) (by omega)
      have he : jokerCard (k + 256) = jokerCard k := (jokerCard_eq_iff _ _).mpr (by omega)
      rw [he] at h
      simpa using h

/-! ## Sorting the canonical deck, and the custom sort -/

set_option maxRecDepth 100000 in
/-- The keys of the deck built by the nested loops increase strictly. -/
theorem newCards_strictly_sorted : newCards.Pairwise (fun a b => absRank a < absRank b) := by
  decide

/-- C19: the canonical deck is already in default-sort order with strictly
increasing keys, the card at index `i` of `New()` having key `i + 1`, so
sorting it changes nothing: `New(DefaultSort)` equals `New()` as a sequence.
`sort.Slice` is any function that meets its documented contract. -/
theorem New_DefaultSort_unchanged (sortSlice : SliceSorter) (hs : SliceSortSpec sortSlice) :
    ∃ deck, New [] = some deck ∧
      (∀ (i : Nat) (c : Card), deck[i]? = some c → absRank c = i + 1) ∧
      deck.Pairwise (fun a b => absRank a < absRank b) ∧
      New [DefaultSort sortSlice] = some deck ∧
      New [DefaultSort sortSlice] = New [] := by
  refine ⟨newCards, rfl, ?_, newCards_strictly_sorted, New_DefaultSort sortSlice hs,
    New_DefaultSort sortSlice hs⟩
  intro i c hc
  have hi : i < 52 := by
    have := (List.getElem?_eq_some.mp hc).1
    rwa [newCards_length] at this
  have h := newCards_key_at i hi
  rw [hc] at h
  simpa using h

theorem New_DefaultSort_unchanged_witness :
    SliceSortSpec insertionSort ∧
    ∃ deck, New [] = some deck ∧
      (∀ (i : Nat) (c : Card), deck[i]? = some c → absRank c = i + 1) ∧
      deck.Pairwise (fun a b => absRank a < absRank b) ∧
      New [DefaultSort insertionSort] = some deck ∧
      New [DefaultSort insertionSort] = New [] :=
  ⟨insertionSort_spec, New_DefaultSort_unchanged insertionSort insertionSort_spec⟩

/-- C20: the custom-sort factory instantiated with the exported comparator
`Less` is the default sort: `Sort(Less)(cs)` equals `DefaultSort(cs)` for
every sequence `cs`, whatever `sort.Slice` does.  The call `Less(cards)`
returns its closure and cannot panic. -/
theorem CustomSort_Less (sortSlice : SliceSorter) (cs : List Card) :
    CustomSort sortSlice (fun cards => some (Less cards)) cs = DefaultSort sortSlice cs ∧
    CustomSort sortSlice (fun cards => some (Less cards)) = DefaultSort sortSlice ∧
    CustomSort sortSlice (fun cards => some (Less cards)) cs = sortSlice cs (Less cs) :=
  ⟨rfl, rfl, rfl⟩

/-! ## Sorting twice -/

/-- Successive insertions of the cards of a slice that is in order stack them
up: no card moves past another. -/
theorem foldl_insDesc_sorted (lt : Card → Card → Bool) (rest rp : List Card)
    (h : (rp.reverse ++ rest).Pairwise (fun a b => lt b a = false)) :
    rest.foldl (fun rp x => insDesc lt x rp) rp = rest.reverse ++ rp := by
  induction rest generalizing rp with
  | nil => simp
  | cons x rest ih =>
    have hins : insDesc lt x rp = x :: rp := by
      cases rp with
      | nil => simp [insDesc]
      | cons y rp =>
        have hyx : lt x y = false := by
          have h' := (List.pairwise_append.mp h).2.2
          exact h' y (by simp) x (by simp)
        simp [insDesc, hyx]
    rw [List.foldl_cons, hins, ih (x :: rp) (by simpa using h)]
    simp

/-- The insertion sort gives back a slice that is in order as it is. -/
theorem insertionSort_keepsSorted : KeepsSorted insertionSort := by
  intro x less lt _ hc hx
  rw [insertionSort_eq less lt hc x, foldl_insDesc_sorted lt x [] (by simpa using hx)]
  simp

/-- Under the contract of `sort.Slice` alone, a second `DefaultSort` returns
the same keys in the same order as the first, and the same cards in the same
order when no two different cards of the input share a key. -/
theorem DefaultSort_twice_keys (sortSlice : SliceSorter) (hs : SliceSortSpec sortSlice)
    (cs : List Card) :
    ∃ once twice, DefaultSort sortSlice cs = some once ∧
      DefaultSort sortSlice once = some twice ∧ twice.Perm once ∧
      twice.map absRank = once.map absRank ∧
      ((∀ a ∈ cs, ∀ b ∈ cs, absRank a = absRank b → a = b) → twice = once) := by
  obtain ⟨once, h1, hp1, hs1⟩ := DefaultSort_spec sortSlice hs cs
  obtain ⟨twice, h2, hp2, hs2⟩ := DefaultSort_spec sortSlice hs once
  refine ⟨once, twice, h1, h2, hp2, ?_, ?_⟩
  · refine List.Perm.eq_of_sorted (fun a b _ _ hab hba => Nat.le_antisymm hab hba)
      (List.pairwise_map.mpr hs2) (List.pairwise_map.mpr hs1) (hp2.map absRank)
  · intro hinj
    refine sorted_perm_unique twice once hp2 hs2 hs1 ?_
    intro a ha b hb hab
    exact hinj a (hp1.subset ha) b (hp1.subset hb) hab

/-- The contract of `sort.Slice` alone does not make `DefaultSort`
idempotent: the sort that reverses equal keys meets it, and with it a second
`DefaultSort` exchanges the King of Hearts and the joker of index 0 again.
This is why the statement on sorting twice is about the steps `sort.Slice`
takes, and not about every function that meets its contract. -/
theorem reversingSort_twice :
    DefaultSort reversingSort
        [{ Suit := Heart, Rank := King }, { Suit := Joker, Rank := 0 }]
      = some [{ Suit := Joker, Rank := 0 }, { Suit := Heart, Rank := King }] ∧
    DefaultSort reversingSort
        [{ Suit := Joker, Rank := 0 }, { Suit := Heart, Rank := King }]
      = some [{ Suit := Heart, Rank := King }, { Suit := Joker, Rank := 0 }] := by
  constructor <;> decide

/-! ## The first steps of `sort.Slice` -/

/-- For a comparator that compares by `lt`, a call on two positions of the
slice returns the comparison of the two cards. -/
theorem comparesBy_at (less : LessFn) (lt : Card → Card → Bool) (hc : ComparesBy less lt)
    (data : List Card) (i j : Nat) (hi : i < data.length) (hj : j < data.length) :
    less data i j = some (lt data[i] data[j]) :=
  hc data i j data[i] data[j] (List.getElem?_eq_getElem hi) (List.getElem?_eq_getElem hj)

/-- On a slice that is in order `order2_func` finds two positions given in
increasing order in order, and counts no swap. -/
theorem order2_sorted (less : LessFn) (lt : Card → Card → Bool) (hc : ComparesBy less lt)
    (data : List Card) (hs : data.Pairwise (fun x y => lt y x = false))
    (a b s : Nat) (hab : a < b) (hb : b < data.length) :
    order2 less data a b s = some (a, b, s) := by
  have ha : a < data.length := by omega
  unfold order2
  rw [comparesBy_at less lt hc data b a hb ha,
    List.pairwise_iff_getElem.mp hs a b ha hb hab]

/-- On a slice that is in order `median_func` of three positions given in
increasing order is the middle one, and it counts no swap. -/
theorem median_sorted (less : LessFn) (lt : Card → Card → Bool) (hc : ComparesBy less lt)
    (data : List Card) (hs : data.Pairwise (fun x y => lt y x = false))
    (a b c s : Nat) (hab : a < b) (hbc : b < c) (hcc : c < data.length) :
    median less data a b c s = some (b, s) := by
  simp only [median, order2_sorted less lt hc data hs a b s hab (by omega),
    order2_sorted less lt hc data hs b c s hbc hcc]

/-- On a slice of more than 12 elements that is in order `choosePivot_func`
counts no swap. -/
theorem choosePivot_sorted (less : LessFn) (lt : Card → Card → Bool) (hc : ComparesBy less lt)
    (data : List Card) (hs : data.Pairwise (fun x y => lt y x = false))
    (hn : 12 < data.length) :
    choosePivot less data = some (data.length / 4 * 2, 0) := by
  have h8 : 8 ≤ data.length := by omega
  unfold choosePivot
  simp only [h8, if_true]
  by_cases h50 : 50 ≤ data.length
  · simp only [h50, if_true, medianAdjacent]
    rw [median_sorted less lt hc data hs _ _ _ 0 (by omega) (by omega) (by omega)]
    simp only
    rw [median_sorted less lt hc data hs _ _ _ 0 (by omega) (by omega) (by omega)]
    simp only
    rw [median_sorted less lt hc data hs _ _ _ 0 (by omega) (by omega) (by omega)]
    simp only
    rw [median_sorted less lt hc data hs _ _ _ 0 (by omega) (by omega) (by omega)]
  · simp only [h50, if_false]
    rw [median_sorted less lt hc data hs _ _ _ 0 (by omega) (by omega) (by omega)]

/-- The walk of `partialInsertionSort_func` over the part of the slice that
starts with `a`: it returns, and reaches the end exactly when no card of that
part sorts before its left neighbour. -/
theorem orderedScan_spec (less : LessFn) (lt : Card → Card → Bool) (hc : ComparesBy less lt)
    (pre : List Card) (a : Card) (post : List Card) :
    ∃ b, orderedScan less (pre ++ a :: post) post.length (pre.length + 1) = some b ∧
      (b = true ↔ List.Chain (fun x y => lt y x = false) a post) := by
  induction post generalizing pre a with
  | nil => exact ⟨true, rfl, by simp⟩
  | cons c post ih =>
    have hb : (pre ++ a :: c :: post)[pre.length + 1]? = some c := by
      rw [List.getElem?_append_right (by omega)]; simp
    have ha : (pre ++ a :: c :: post)[pre.length]? = some a := by
      rw [List.getElem?_append_right (by omega)]; simp
    have hless := hc _ _ _ _ _ hb ha
    simp only [List.length_cons, orderedScan, Nat.add_sub_cancel, hless]
    cases hlt : lt c a
    · obtain ⟨b, hb', hiff⟩ := ih (pre ++ [a]) c
      have hd : pre ++ [a] ++ c :: post = pre ++ a :: c :: post := by simp
      rw [hd, List.length_append, List.length_singleton] at hb'
      exact ⟨b, hb', by rw [hiff, List.chain_cons]; simp [hlt]⟩
    · exact ⟨false, rfl, by rw [List.chain_cons]; simp [hlt]⟩

/-- In a strict weak order "does not sort before an earlier one" passes from
neighbours to all pairs. -/
theorem pairwise_of_chain (lt : Card → Card → Bool) (hw : StrictWeak lt) (a : Card)
    (post : List Card) (h : List.Chain (fun x y => lt y x = false) a post) :
    (a :: post).Pairwise (fun x y => lt y x = false) := by
  induction post generalizing a with
  | nil => simp
  | cons c post ih =>
    rw [List.chain_cons] at h
    have hp := ih c h.2
    refine List.pairwise_cons.mpr ⟨?_, hp⟩
    intro y hy
    rcases List.mem_cons.mp hy with rfl | hy
    · exact h.1
    · exact hw.negTrans y c a ((List.pairwise_cons.mp hp).1 y hy) h.1

/-- The walk over the whole slice, for a comparator that compares by `lt`:
it returns, and when it reaches the end the slice is in order. -/
theorem orderedScan_whole (less : LessFn) (lt : Card → Card → Bool) (hw : StrictWeak lt)
    (hc : ComparesBy less lt) (data : List Card) (hn : 0 < data.length) :
    ∃ b, orderedScan less data (data.length - 1) 1 = some b ∧
      (b = true → data.Pairwise (fun x y => lt y x = false)) ∧
      (data.Pairwise (fun x y => lt y x = false) → b = true) := by
  cases data with
  | nil => simp at hn
  | cons a post =>
    obtain ⟨b, hb, hiff⟩ := orderedScan_spec less lt hc [] a post
    refine ⟨b, by simpa using hb, ?_, ?_⟩
    · intro h
      exact pairwise_of_chain lt hw a post (hiff.mp h)
    · intro h
      exact hiff.mpr (List.Pairwise.chain' h)

/-- The model of `sort.Slice` gives back a slice that is in order as it is,
whatever the part `rest` is. -/
theorem goSortSlice_keepsSorted (rest : SliceSorter) : KeepsSorted (goSortSlice rest) := by
  intro x less lt hw hc hx
  unfold goSortSlice
  by_cases hn : x.length ≤ 12
  · simp only [hn, if_true]
    exact insertionSort_keepsSorted x less lt hw hc hx
  · simp only [hn, if_false, choosePivot_sorted less lt hc x hx (by omega)]
    obtain ⟨b, hb, _, htrue⟩ := orderedScan_whole less lt hw hc x (by omega)
    rw [hb, htrue hx]
    simp

set_option maxRecDepth 100000 in
/-- The standard deck followed by two jokers is in key order. -/
theorem deck54_sorted :
    (newCards ++ jokerCards 2).Pairwise (fun a b => keyLess b a = false) := by
  decide

/-- The deck `New(Jokers(2))` is in key order when `DefaultSort` receives it,
and `sort.Slice` gives it back as it is: there the two jokers stay last. -/
theorem New_Jokers2_DefaultSort_go (rest : SliceSorter) :
    New [Jokers 2, DefaultSort (goSortSlice rest)]
      = some (newCards ++ [{ Suit := Joker, Rank := 0 }, { Suit := Joker, Rank := 1 }]) := by
  have h := New_snoc [Jokers 2] (DefaultSort (goSortSlice rest))
  rw [List.singleton_append] at h
  rw [h, New_single, Jokers_eq, Option.some_bind]
  exact goSortSlice_keepsSorted rest (newCards ++ jokerCards 2)
    (Less (newCards ++ jokerCards 2)) keyLess keyLess_strictWeak
    (Less_comparesBy (newCards ++ jokerCards 2)) deck54_sorted

/-- C9: `DefaultSort` does not place every joker after every card of the four
standard suits.  On the deck made of the joker of index 0 followed by the
King of Hearts both keys are 52 (`4*13 + 0` and `3*13 + 13`), `Less` puts
neither card before the other, the insertion sort that `sort.Slice` runs on
a short slice swaps nothing, and the joker stays before a standard card. -/
theorem DefaultSort_joker_first :
    SliceSortSpec insertionSort ∧
    DefaultSort insertionSort
        [{ Suit := Joker, Rank := 0 }, { Suit := Heart, Rank := King }]
      = some [{ Suit := Joker, Rank := 0 }, { Suit := Heart, Rank := King }] ∧
    absRank { Suit := Joker, Rank := 0 } = 52 ∧
    absRank { Suit := Heart, Rank := King } = 52 ∧
    ¬ (∀ out, DefaultSort insertionSort
          [{ Suit := Joker, Rank := 0 }, { Suit := Heart, Rank := King }] = some out →
        ∀ (i j : Nat) (a b : Card), out[i]? = some a → out[j]? = some b →
          a.Suit = Joker → isStandard b = true → j < i) := by
  have hrun : DefaultSort insertionSort
      [{ Suit := Joker, Rank := 0 }, { Suit := Heart, Rank := King }]
        = some [{ Suit := Joker, Rank := 0 }, { Suit := Heart, Rank := King }] := by decide
  refine ⟨insertionSort_spec, hrun, by decide, by decide, ?_⟩
  intro h
  have := h _ hrun 0 1 { Suit := Joker, Rank := 0 } { Suit := Heart, Rank := King }
    rfl rfl rfl (by decide)
  omega

/-- The model of `sort.Slice` runs the insertion sort on the two-card deck
and leaves the joker first as well, whatever `rest` is. -/
theorem goSortSlice_joker_first (rest : SliceSorter) :
    DefaultSort (goSortSlice rest)
        [{ Suit := Joker, Rank := 0 }, { Suit := Heart, Rank := King }]
      = some [{ Suit := Joker, Rank := 0 }, { Suit := Heart, Rank := King }] := by
  have h : DefaultSort (goSortSlice rest)
      [{ Suit := Joker, Rank := 0 }, { Suit := Heart, Rank := King }]
      = DefaultSort insertionSort
          [{ Suit := Joker, Rank := 0 }, { Suit := Heart, Rank := King }] := by
    simp [DefaultSort, goSortSlice]
  rw [h]
  decide

end Deck
